import Mathlib

/-!
Verification of the simplex-based schedulers in `lib/Scheduling/SimplexSchedulers.cpp`.

The C++ code implements a parametric dual-simplex solver (`SimplexSchedulerBase`)
with two front ends: `SimplexScheduler` for acyclic problems and
`CyclicSimplexScheduler` for cyclic problems, where the initiation interval (II)
is the solved parameter T.

The embedding below mirrors the source operationally:
* the tableau is a total function `Nat → Nat → Int` together with the explicit
  row/column counts `nRows`/`nColumns` kept by the C++ class;
* the bookkeeping vectors `nonBasicVariables`/`basicVariables` are functions
  from positions to variable ids, updated exactly where `std::swap` updates them;
* machine `int` arithmetic never overflows in these algorithms, so `Int` is used;
  the single C++ `/` on ints (`(-entry1Col - 1) / entryTCol`) is truncating
  division, i.e. `Int.tdiv`;
* the unbounded `while` loop of `solveTableau` is given explicit fuel; a run
  that terminates in the source corresponds to a sufficiently large fuel here;
* mutation of the external `Problem` (setStartTime / setInitiationInterval) is
  represented by an explicit list of write events, produced in source order.
-/

/-- State of `SimplexSchedulerBase`: tableau, variable bookkeeping, and the
parameter T (the current trial II). The temporary
`implicitBasicVariableColumnVector` is zero between pivots in the source; the
`pivot` function below folds its intermediate values into a closed form. -/
structure SimplexState where
  nRows : Nat
  nColumns : Nat
  tab : Nat → Nat → Int
  nonBasic : Nat → Nat
  basic : Nat → Nat
  parameterT : Int

/-- Value of a constraint row under the current parameter T:
`tableau[row][parameter1Column] + tableau[row][parameterTColumn] * parameterT`. -/
def rowValue (st : SimplexState) (r : Nat) : Int :=
  st.tab r 0 + st.tab r 1 * st.parameterT

/-- Scanning loop of `findPivotRow`, beginning at row `r` with `k` rows left. -/
def findPivotRowGo (st : SimplexState) (r k : Nat) : Option Nat :=
  match k with
  | 0 => none
  | k + 1 => if rowValue st r < 0 then some r else findPivotRowGo st (r + 1) k

/-- `SimplexSchedulerBase::findPivotRow`: first constraint row whose value is
negative under the current T. -/
def findPivotRow (st : SimplexState) : Option Nat :=
  findPivotRowGo st 1 (st.nRows - 1)

/-- Scanning loop of `findPivotColumn`: `best` carries the pair
(maxQuot, pivotCol), both always set together in the source. -/
def findPivotColGo (st : SimplexState) (pr : Nat) (c k : Nat)
    (best : Option (Int × Nat)) : Option Nat :=
  match k with
  | 0 => best.map (fun q => q.2)
  | k + 1 =>
    if st.tab pr c < 0 then
      match best with
      | none => findPivotColGo st pr (c + 1) k (some (- st.tab 0 c, c))
      | some qb =>
        if - st.tab 0 c > qb.1 then findPivotColGo st pr (c + 1) k (some (- st.tab 0 c, c))
        else findPivotColGo st pr (c + 1) k (some qb)
    else findPivotColGo st pr (c + 1) k best

/-- `SimplexSchedulerBase::findPivotColumn`: among non-basic-variable columns
(indices at least 2) with a negative entry in the pivot row, the one maximizing
`-tableau[objectiveRow][col]`, first-seen winning ties. -/
def findPivotColumn (st : SimplexState) (pr : Nat) : Option Nat :=
  findPivotColGo st pr 2 (st.nColumns - 2) none

/-- `SimplexSchedulerBase::pivot` in closed form.  The source negates the pivot
row, adds multiples of it to the other rows to clear the pivot column, then
overwrites the pivot column with the implicit-column vector (which at that point
holds `-1` in the pivot row and the old pivot-column entries elsewhere), and
finally swaps the two variable ids. -/
def pivot (st : SimplexState) (r c : Nat) : SimplexState :=
  { st with
    tab := fun i j =>
      if j = c then (if i = r then -1 else st.tab i c)
      else if i = r then - st.tab r j
      else st.tab i j + st.tab i c * st.tab r j
    nonBasic := fun k => if k = c - 2 then st.basic (r - 1) else st.nonBasic k
    basic := fun k => if k = r - 1 then st.nonBasic (c - 2) else st.basic k }

/-- The new parameter T computed by `solveTableau` when a violated row has no
pivot column but a positive entry in the T column:
`(-entry1Col - 1) / entryTCol + 1` with C++ (truncating) division. -/
def grownParameterT (e1 eT : Int) : Int :=
  (-e1 - 1).tdiv eT + 1

/-- Outcome of one iteration of the `solveTableau` loop body. -/
inductive StepRes where
  | cont (st : SimplexState)
  | optimal
  | infeasible

/-- One iteration of the `while` loop in `SimplexSchedulerBase::solveTableau`. -/
def solveStep (st : SimplexState) : StepRes :=
  match findPivotRow st with
  | none => .optimal
  | some r =>
    match findPivotColumn st r with
    | some c => .cont (pivot st r c)
    | none =>
      if st.tab r 1 > 0 then
        .cont { st with parameterT := grownParameterT (st.tab r 0) (st.tab r 1) }
      else .infeasible

/-- Result of `solveTableau`, carrying the state at loop exit.  `outOfFuel`
marks an under-approximation of the unbounded source loop, never a source
behaviour. -/
inductive SolveResult where
  | optimal (st : SimplexState)
  | infeasible (st : SimplexState)
  | outOfFuel (st : SimplexState)

/-- Whether a solve ended in the infeasible branch. -/
def SolveResult.isInfeasible : SolveResult → Bool
  | .infeasible _ => true
  | _ => false

/-- `SimplexSchedulerBase::solveTableau`, with fuel bounding the number of loop
iterations. -/
def solveTableau : Nat → SimplexState → SolveResult
  | 0, st => .outOfFuel st
  | f + 1, st =>
    match solveStep st with
    | .cont st' => solveTableau f st'
    | .optimal => .optimal st
    | .infeasible => .infeasible st

/-- Iterating `solveStep` while it continues; `none` once the loop has stopped
(or would stop) before `k` iterations.  Used to speak about the states reached
by the solve loop. -/
def iterStep : Nat → SimplexState → Option SimplexState
  | 0, st => some st
  | k + 1, st =>
    match solveStep st with
    | .cont st' => iterStep k st'
    | _ => none

/-- A dependence edge of the scheduling problem: source and destination
operation indices plus the cyclic distance (`getDistance`, absent modelled
as 0, which the source treats identically). -/
structure Dep where
  src : Nat
  dst : Nat
  dist : Nat
deriving DecidableEq, Repr

/-- The external problem, as consumed through the `Problem` interface:
operations are numbered `0 .. nOps-1` in enumeration order, `lat i` is the
latency of operation `i`'s linked operator type, `deps` lists the dependences
in the order `buildTableau` visits them (grouped by destination), and `lastOp`
is the operation whose start time is minimized. -/
structure SchedProblem where
  nOps : Nat
  lat : Nat → Nat
  deps : List Dep
  lastOp : Nat

/-- Entry `j` of a freshly filled constraint row.  Mirrors `fillConstraintRow`:
`row[parameter1Column] = -latency; row[opColumns[src]] = 1;
row[opColumns[dst]] = -1`, the destination assignment overwriting the source
assignment when `src = dst`; the cyclic override then sets
`row[parameterTColumn]` to the distance. -/
def constraintRowEntry (isCyclic : Bool) (p : SchedProblem) (d : Dep) (j : Nat) : Int :=
  if j = 2 + d.dst then -1
  else if j = 2 + d.src then 1
  else if j = 0 then -(p.lat d.src : Int)
  else if j = 1 then (if isCyclic then (d.dist : Int) else 0)
  else 0

/-- `buildTableau` together with the `parameterT` initialization done by the
two `schedule()` front ends (0 for acyclic, 1 for cyclic): start-time variables
`0..nOps-1` begin non-basic in columns `2..`, slack variables `nOps..` begin
basic in rows `1..`, the objective row holds a single 1 in the last operation's
column. -/
def buildTableau (isCyclic : Bool) (p : SchedProblem) : SimplexState :=
  { nRows := 1 + p.deps.length
    nColumns := 2 + p.nOps
    tab := fun i j =>
      if i = 0 then (if j = 2 + p.lastOp then 1 else 0)
      else
        match p.deps.get? (i - 1) with
        | some d => constraintRowEntry isCyclic p d j
        | none => 0
    nonBasic := fun k => k
    basic := fun k => p.nOps + k
    parameterT := if isCyclic then 1 else 0 }

/-- A write to the external problem object. -/
inductive WriteEvent where
  | setStart (op : Nat) (t : Int)
  | setII (ii : Int)
deriving DecidableEq, Repr

/-- `SimplexSchedulerBase::storeStartTimes` as a list of `setStartTime` events:
for basic start-time variables the row value under the final T, for non-basic
start-time variables 0; slack variables are skipped. -/
def storeStartTimes (p : SchedProblem) (st : SimplexState) : List WriteEvent :=
  ((List.range (st.nRows - 1)).filterMap fun i =>
    if st.basic i < p.nOps then
      some (.setStart (st.basic i) (rowValue st (1 + i)))
    else none) ++
  ((List.range (st.nColumns - 2)).filterMap fun k =>
    if st.nonBasic k < p.nOps then some (.setStart (st.nonBasic k) 0) else none)

/-- `scheduleSimplex(Problem &, Operation *)` via `SimplexScheduler::schedule`:
on solver success the problem receives the computed start times; on failure
(or exhausted fuel) nothing is written and `none` is returned. -/
def scheduleSimplexAcyclic (fuel : Nat) (p : SchedProblem) : Option (List WriteEvent) :=
  match solveTableau fuel (buildTableau false p) with
  | .optimal st => some (storeStartTimes p st)
  | _ => none

/-- `scheduleSimplex(CyclicProblem &, Operation *)` via
`CyclicSimplexScheduler::schedule`: on success the initiation interval is
written first, then the start times. -/
def scheduleSimplexCyclic (fuel : Nat) (p : SchedProblem) : Option (List WriteEvent) :=
  match solveTableau fuel (buildTableau true p) with
  | .optimal st => some (.setII st.parameterT :: storeStartTimes p st)
  | _ => none

/-! ### Concrete problems used by the spec's examples -/

/-- Cyclic example from the spec: a single operation A with a self-dependence
of latency 4 and distance 1, lastOp = A. -/
def selfLoopProblem : SchedProblem :=
  { nOps := 1, lat := fun _ => 4, deps := [⟨0, 0, 1⟩], lastOp := 0 }

/-- Acyclic example from the spec: operations {A,B,C} numbered 0,1,2 with
dependences A→B (latency 2) and B→C (latency 3), lastOp = C. -/
def chainProblem : SchedProblem :=
  { nOps := 3, lat := fun i => if i = 0 then 2 else if i = 1 then 3 else 0,
    deps := [⟨0, 1, 0⟩, ⟨1, 2, 0⟩], lastOp := 2 }

/-- Infeasible acyclic example from the spec: A→B latency 5 and B→A latency 5
with no distance relief. -/
def twoCycleProblem : SchedProblem :=
  { nOps := 2, lat := fun _ => 5, deps := [⟨1, 0, 0⟩, ⟨0, 1, 0⟩], lastOp := 1 }

/-! ### Claim C4: the parameter-growing arithmetic -/

/-- Helper for C4: with a negative constant entry and a positive T entry, the
grown parameter value makes the row value non-negative. -/
theorem grownParameterT_makes_nonneg {e1 eT : Int} (h1 : e1 < 0) (hT : 0 < eT) :
    0 ≤ e1 + grownParameterT e1 eT * eT := by
  have ha : (0 : Int) ≤ -e1 - 1 := by omega
  have hb : (0 : Int) ≤ eT := le_of_lt hT
  have hdiv : (-e1 - 1).tdiv eT = (-e1 - 1) / eT := Int.tdiv_eq_ediv ha hb
  have hmod : (-e1 - 1) % eT < eT := Int.emod_lt_of_pos _ hT
  have hdm : eT * ((-e1 - 1) / eT) + (-e1 - 1) % eT = -e1 - 1 :=
    Int.ediv_add_emod _ _
  unfold grownParameterT
  rw [hdiv]
  nlinarith [hdm, hmod]

/-- Helper for C4: the grown parameter value is at most any T making the row
value non-negative. -/
theorem grownParameterT_minimal {e1 eT : Int} (h1 : e1 < 0) (hT : 0 < eT)
    {T : Int} (hfeas : 0 ≤ e1 + T * eT) : grownParameterT e1 eT ≤ T := by
  have ha : (0 : Int) ≤ -e1 - 1 := by omega
  have hb : (0 : Int) ≤ eT := le_of_lt hT
  have hdiv : (-e1 - 1).tdiv eT = (-e1 - 1) / eT := Int.tdiv_eq_ediv ha hb
  unfold grownParameterT
  rw [hdiv]
  have hlt : -e1 - 1 < T * eT := by nlinarith
  have : (-e1 - 1) / eT < T := by
    rw [Int.ediv_lt_iff_lt_mul hT]
    exact hlt
  omega

/-! ### Claims C1 and C2: the cyclic self-dependence example -/

/-- The initiation interval reported by a cyclic scheduling run, read off the
write log (`setInitiationInterval` is the first write on success). -/
def reportedII : Option (List WriteEvent) → Option Int
  | some (.setII ii :: _) => some ii
  | _ => none

/-- C1: on the spec's cyclic example (single operation A, self-dependence A→A
with latency 4 and distance 1, lastOp = A) the scheduler as implemented
succeeds but reports II = 1 and start(A) = 3 (the spec expects II = 4 and
start(A) = 0): `fillConstraintRow` first writes `+1` into the source's column
and then overwrites it with `-1` for the destination, which is the same column
for a self-dependence, so the built row is `[-4, 1, -1]` instead of the
intended `[-4, 1, 0]`; the resulting solution violates the dependence, since
start(A) - start(A) + distance * II = 1 < 4 = latency. -/
theorem c1_self_dependence_code_result :
    scheduleSimplexCyclic 8 selfLoopProblem =
      some [WriteEvent.setII 1, WriteEvent.setStart 0 3] ∧
    ¬ ((3 : Int) - 3 + 1 * 1 ≥ 4) := by
  exact ⟨by decide, by decide⟩

/-- C2: the initiation interval reported for `selfLoopProblem` is 1, but 1 is
not the smallest T for which start times satisfying all dependences exist: no
start assignment satisfies the single dependence at T = 1 (its constraint is
start(A) - start(A) + 1 * T ≥ 4), whereas T = 4 (the RecMII,
⌈latency sum 4 / distance sum 1⌉) is feasible.  So the reported II is not the
claimed minimum. -/
theorem c2_reported_ii_not_smallest_feasible :
    reportedII (scheduleSimplexCyclic 8 selfLoopProblem) = some 1 ∧
    (∀ s : Int, ¬ (s - s + 1 * 1 ≥ 4)) ∧
    (∃ s : Int, s - s + 1 * 4 ≥ 4) := by
  refine ⟨by decide, fun s => by omega, ⟨0, by omega⟩⟩

/-! ### Claim C7: characterization of findPivotRow -/

/-- Scanning-loop characterization, some-case: the returned row is the first
violated row in the scanned range. -/
theorem findPivotRowGo_eq_some (st : SimplexState) :
    ∀ k r r', findPivotRowGo st r k = some r' ↔
      (r ≤ r' ∧ r' < r + k ∧ rowValue st r' < 0 ∧
        ∀ i, r ≤ i → i < r' → 0 ≤ rowValue st i) := by
  intro k
  induction k with
  | zero =>
    intro r r'
    simp only [findPivotRowGo]
    constructor
    · intro h; cases h
    · intro h; omega
  | succ k ih =>
    intro r r'
    simp only [findPivotRowGo]
    by_cases h : rowValue st r < 0
    · simp only [h, if_pos]
      constructor
      · intro he
        cases he
        exact ⟨le_refl r, by omega, h, fun i h1 h2 => by omega⟩
      · rintro ⟨h1, h2, h3, h4⟩
        by_cases hrr : r' = r
        · simp [hrr]
        · exact absurd (h4 r (le_refl r) (by omega)) (by omega)
    · simp only [h, if_neg, if_false]
      rw [ih (r + 1) r']
      constructor
      · rintro ⟨h1, h2, h3, h4⟩
        refine ⟨by omega, by omega, h3, fun i hi1 hi2 => ?_⟩
        by_cases hir : i = r
        · subst hir; omega
        · exact h4 i (by omega) hi2
      · rintro ⟨h1, h2, h3, h4⟩
        have hne : r' ≠ r := fun he => h (he ▸ h3)
        exact ⟨by omega, by omega, h3, fun i hi1 hi2 => h4 i (by omega) hi2⟩

/-- Scanning-loop characterization, none-case: no violated row in the range. -/
theorem findPivotRowGo_eq_none (st : SimplexState) :
    ∀ k r, findPivotRowGo st r k = none ↔
      ∀ i, r ≤ i → i < r + k → 0 ≤ rowValue st i := by
  intro k
  induction k with
  | zero =>
    intro r
    simp only [findPivotRowGo]
    exact ⟨fun _ i h1 h2 => by omega, fun _ => by trivial⟩
  | succ k ih =>
    intro r
    simp only [findPivotRowGo]
    by_cases h : rowValue st r < 0
    · simp only [h, if_pos]
      constructor
      · intro he; cases he
      · intro hall; exact absurd (hall r (le_refl r) (by omega)) (by omega)
    · simp only [h, if_neg, if_false]
      rw [ih (r + 1)]
      constructor
      · intro hall i h1 h2
        by_cases hir : i = r
        · subst hir; omega
        · exact hall i (by omega) (by omega)
      · intro hall i h1 h2
        exact hall i (by omega) (by omega)

/-- C7: `findPivotRow` returns the smallest constraint-row index (scanning from
`firstConstraintRow = 1`) whose value `tableau[r][parameter1Column] +
parameterT * tableau[r][parameterTColumn]` is negative, and returns none
exactly when every constraint row's value is non-negative. -/
theorem c7_findPivotRow_contract (st : SimplexState) :
    (∀ r, findPivotRow st = some r ↔
      (1 ≤ r ∧ r < st.nRows ∧ rowValue st r < 0 ∧
        ∀ i, 1 ≤ i → i < r → 0 ≤ rowValue st i)) ∧
    (findPivotRow st = none ↔ ∀ i, 1 ≤ i → i < st.nRows → 0 ≤ rowValue st i) := by
  constructor
  · intro r
    rw [findPivotRow, findPivotRowGo_eq_some]
    constructor
    · rintro ⟨h1, h2, h3, h4⟩; exact ⟨h1, by omega, h3, h4⟩
    · rintro ⟨h1, h2, h3, h4⟩; exact ⟨h1, by omega, h3, h4⟩
  · rw [findPivotRow, findPivotRowGo_eq_none]
    constructor
    · intro hall i h1 h2; exact hall i h1 (by omega)
    · intro hall i h1 h2; exact hall i h1 (by omega)

/-! ### Claim C8: characterization of findPivotColumn -/

/-- Scanning-loop characterization with a non-empty accumulator `(q, b)`:
either the accumulated column survives (no candidate in the remaining range
beats quotient `q`), or the first-seen maximal candidate of the remaining
range wins, provided it strictly beats `q`. -/
theorem findPivotColGo_some_acc (st : SimplexState) (pr : Nat) :
    ∀ k c q b c', findPivotColGo st pr c k (some (q, b)) = some c' ↔
      ((c' = b ∧ ∀ j, c ≤ j → j < c + k → st.tab pr j < 0 → - st.tab 0 j ≤ q) ∨
       (st.tab pr c' < 0 ∧ c ≤ c' ∧ c' < c + k ∧ q < - st.tab 0 c' ∧
         (∀ j, c ≤ j → j < c + k → st.tab pr j < 0 →
           - st.tab 0 j ≤ - st.tab 0 c') ∧
         (∀ j, c ≤ j → j < c' → st.tab pr j < 0 →
           - st.tab 0 j < - st.tab 0 c'))) := by
  intro k
  induction k with
  | zero =>
    intro c q b c'
    simp only [findPivotColGo, Option.map_some', Option.some.injEq]
    constructor
    · intro h; exact Or.inl ⟨h.symm, fun j h1 h2 => by omega⟩
    · rintro (⟨h1, _⟩ | ⟨_, h2, h3, _⟩)
      · exact h1.symm
      · omega
  | succ k ih =>
    intro c q b c'
    simp only [findPivotColGo]
    by_cases h : st.tab pr c < 0
    · simp only [h, if_pos]
      by_cases hq : - st.tab 0 c > q
      · simp only [hq, if_pos]
        rw [ih (c + 1) (- st.tab 0 c) c c']
        constructor
        · rintro (⟨h1, h2⟩ | ⟨h1, h2, h3, h4, h5, h6⟩)
          · rw [h1]
            refine Or.inr ⟨h, by omega, by omega, hq, fun j hj1 hj2 hj3 => ?_,
              fun j hj1 hj2 hj3 => by omega⟩
            by_cases hjc : j = c
            · subst hjc; exact le_refl _
            · exact h2 j (by omega) (by omega) hj3
          · refine Or.inr ⟨h1, by omega, by omega, by omega,
              fun j hj1 hj2 hj3 => ?_, fun j hj1 hj2 hj3 => ?_⟩
            · by_cases hjc : j = c
              · subst hjc; omega
              · exact h5 j (by omega) (by omega) hj3
            · by_cases hjc : j = c
              · subst hjc; omega
              · exact h6 j (by omega) hj2 hj3
        · rintro (⟨h1, h2⟩ | ⟨h1, h2, h3, h4, h5, h6⟩)
          · exact absurd (h2 c (le_refl c) (by omega) h) (by omega)
          · by_cases hcc : c' = c
            · subst hcc
              exact Or.inl ⟨rfl, fun j hj1 hj2 hj3 => h5 j (by omega) (by omega) hj3⟩
            · refine Or.inr ⟨h1, by omega, by omega, h6 c (le_refl c) (by omega) h,
                fun j hj1 hj2 hj3 => h5 j (by omega) (by omega) hj3,
                fun j hj1 hj2 hj3 => h6 j (by omega) hj2 hj3⟩
      · simp only [hq, if_neg, if_false]
        rw [ih (c + 1) q b c']
        have hqc : - st.tab 0 c ≤ q := by omega
        constructor
        · rintro (⟨h1, h2⟩ | ⟨h1, h2, h3, h4, h5, h6⟩)
          · refine Or.inl ⟨h1, fun j hj1 hj2 hj3 => ?_⟩
            by_cases hjc : j = c
            · subst hjc; exact hqc
            · exact h2 j (by omega) (by omega) hj3
          · refine Or.inr ⟨h1, by omega, by omega, h4,
              fun j hj1 hj2 hj3 => ?_, fun j hj1 hj2 hj3 => ?_⟩
            · by_cases hjc : j = c
              · subst hjc; omega
              · exact h5 j (by omega) (by omega) hj3
            · by_cases hjc : j = c
              · subst hjc; omega
              · exact h6 j (by omega) hj2 hj3
        · rintro (⟨h1, h2⟩ | ⟨h1, h2, h3, h4, h5, h6⟩)
          · exact Or.inl ⟨h1, fun j hj1 hj2 hj3 => h2 j (by omega) (by omega) hj3⟩
          · have hcc : c' ≠ c := fun he => by rw [he] at h4; omega
            refine Or.inr ⟨h1, by omega, by omega, h4,
              fun j hj1 hj2 hj3 => h5 j (by omega) (by omega) hj3,
              fun j hj1 hj2 hj3 => h6 j (by omega) hj2 hj3⟩
    · simp only [h, if_neg, if_false]
      rw [ih (c + 1) q b c']
      constructor
      · rintro (⟨h1, h2⟩ | ⟨h1, h2, h3, h4, h5, h6⟩)
        · refine Or.inl ⟨h1, fun j hj1 hj2 hj3 => ?_⟩
          by_cases hjc : j = c
          · subst hjc; exact absurd hj3 h
          · exact h2 j (by omega) (by omega) hj3
        · refine Or.inr ⟨h1, by omega, by omega, h4,
            fun j hj1 hj2 hj3 => ?_, fun j hj1 hj2 hj3 => ?_⟩
          · by_cases hjc : j = c
            · subst hjc; exact absurd hj3 h
            · exact h5 j (by omega) (by omega) hj3
          · by_cases hjc : j = c
            · subst hjc; exact absurd hj3 h
            · exact h6 j (by omega) hj2 hj3
      · rintro (⟨h1, h2⟩ | ⟨h1, h2, h3, h4, h5, h6⟩)
        · exact Or.inl ⟨h1, fun j hj1 hj2 hj3 => h2 j (by omega) (by omega) hj3⟩
        · have hcc : c' ≠ c := fun he => by rw [he] at h1; exact h h1
          refine Or.inr ⟨h1, by omega, by omega, h4,
            fun j hj1 hj2 hj3 => h5 j (by omega) (by omega) hj3,
            fun j hj1 hj2 hj3 => h6 j (by omega) hj2 hj3⟩

/-- Once a candidate has been recorded, the scan cannot return none. -/
theorem findPivotColGo_acc_ne_none (st : SimplexState) (pr : Nat) :
    ∀ k c q b, findPivotColGo st pr c k (some (q, b)) ≠ none := by
  intro k
  induction k with
  | zero => intro c q b h; cases h
  | succ k ih =>
    intro c q b
    simp only [findPivotColGo]
    by_cases h : st.tab pr c < 0
    · simp only [h, if_pos]
      by_cases hq : - st.tab 0 c > q
      · simp only [hq, if_pos]; exact ih (c + 1) _ c
      · simp only [hq, if_neg, if_false]; exact ih (c + 1) q b
    · simp only [h, if_neg, if_false]; exact ih (c + 1) q b

/-- Scanning-loop characterization with an empty accumulator: the result is
none exactly when the range has no negative entry, and otherwise the first-seen
candidate with maximal objective-row negation wins. -/
theorem findPivotColGo_none_acc (st : SimplexState) (pr : Nat) :
    ∀ k c, (findPivotColGo st pr c k none = none ↔
        ∀ j, c ≤ j → j < c + k → 0 ≤ st.tab pr j) ∧
      (∀ c', findPivotColGo st pr c k none = some c' ↔
        (st.tab pr c' < 0 ∧ c ≤ c' ∧ c' < c + k ∧
          (∀ j, c ≤ j → j < c + k → st.tab pr j < 0 →
            - st.tab 0 j ≤ - st.tab 0 c') ∧
          (∀ j, c ≤ j → j < c' → st.tab pr j < 0 →
            - st.tab 0 j < - st.tab 0 c'))) := by
  intro k
  induction k with
  | zero =>
    intro c
    constructor
    · simp only [findPivotColGo, Option.map_none']
      exact ⟨fun _ j h1 h2 => by omega, fun _ => by trivial⟩
    · intro c'
      simp only [findPivotColGo, Option.map_none']
      constructor
      · intro h; cases h
      · rintro ⟨_, h2, h3, _⟩; omega
  | succ k ih =>
    intro c
    constructor
    · simp only [findPivotColGo]
      by_cases h : st.tab pr c < 0
      · simp only [h, if_pos]
        constructor
        · intro hnone
          exact absurd hnone (findPivotColGo_acc_ne_none st pr k (c + 1) _ c)
        · intro hall; exact absurd (hall c (le_refl c) (by omega)) (by omega)
      · simp only [h, if_neg, if_false]
        rw [(ih (c + 1)).1]
        constructor
        · intro hall j h1 h2
          by_cases hjc : j = c
          · subst hjc; omega
          · exact hall j (by omega) (by omega)
        · intro hall j h1 h2
          exact hall j (by omega) (by omega)
    · intro c'
      simp only [findPivotColGo]
      by_cases h : st.tab pr c < 0
      · simp only [h, if_pos]
        rw [findPivotColGo_some_acc]
        constructor
        · rintro (⟨h1, h2⟩ | ⟨h1, h2, h3, h4, h5, h6⟩)
          · rw [h1]
            refine ⟨h, by omega, by omega, fun j hj1 hj2 hj3 => ?_,
              fun j hj1 hj2 hj3 => by omega⟩
            by_cases hjc : j = c
            · subst hjc; exact le_refl _
            · exact h2 j (by omega) (by omega) hj3
          · refine ⟨h1, by omega, by omega, fun j hj1 hj2 hj3 => ?_,
              fun j hj1 hj2 hj3 => ?_⟩
            · by_cases hjc : j = c
              · subst hjc; omega
              · exact h5 j (by omega) (by omega) hj3
            · by_cases hjc : j = c
              · subst hjc; omega
              · exact h6 j (by omega) hj2 hj3
        · rintro ⟨h1, h2, h3, h4, h5⟩
          by_cases hcc : c' = c
          · subst hcc
            exact Or.inl ⟨rfl, fun j hj1 hj2 hj3 => h4 j (by omega) (by omega) hj3⟩
          · refine Or.inr ⟨h1, by omega, by omega, h5 c (le_refl c) (by omega) h,
              fun j hj1 hj2 hj3 => h4 j (by omega) (by omega) hj3,
              fun j hj1 hj2 hj3 => h5 j (by omega) hj2 hj3⟩
      · simp only [h, if_neg, if_false]
        rw [(ih (c + 1)).2 c']
        constructor
        · rintro ⟨h1, h2, h3, h4, h5⟩
          refine ⟨h1, by omega, by omega, fun j hj1 hj2 hj3 => ?_,
            fun j hj1 hj2 hj3 => ?_⟩
          · by_cases hjc : j = c
            · subst hjc; exact absurd hj3 h
            · exact h4 j (by omega) (by omega) hj3
          · by_cases hjc : j = c
            · subst hjc; exact absurd hj3 h
            · exact h5 j (by omega) hj2 hj3
        · rintro ⟨h1, h2, h3, h4, h5⟩
          have hcc : c' ≠ c := fun he => by rw [he] at h1; exact h h1
          exact ⟨h1, by omega, by omega,
            fun j hj1 hj2 hj3 => h4 j (by omega) (by omega) hj3,
            fun j hj1 hj2 hj3 => h5 j (by omega) hj2 hj3⟩

/-- C8: `findPivotColumn` considers exactly the non-basic-variable columns
(indices at least `firstNonBasicVariableColumn = 2` and below `nColumns`) whose
pivot-row entry is negative; among them it returns the column maximizing
`-tableau[objectiveRow][col]`, ties going to the leftmost (the strict `>`
keeps the first-seen maximum), and it returns none if and only if the pivot
row has no negative entry in those columns. -/
theorem c8_findPivotColumn_contract (st : SimplexState) (pr : Nat) :
    (∀ c, findPivotColumn st pr = some c ↔
      (2 ≤ c ∧ c < st.nColumns ∧ st.tab pr c < 0 ∧
        (∀ j, 2 ≤ j → j < st.nColumns → st.tab pr j < 0 →
          - st.tab 0 j ≤ - st.tab 0 c) ∧
        (∀ j, 2 ≤ j → j < c → st.tab pr j < 0 →
          - st.tab 0 j < - st.tab 0 c))) ∧
    (findPivotColumn st pr = none ↔
      ∀ j, 2 ≤ j → j < st.nColumns → 0 ≤ st.tab pr j) := by
  constructor
  · intro c
    rw [findPivotColumn, (findPivotColGo_none_acc st pr (st.nColumns - 2) 2).2 c]
    constructor
    · rintro ⟨h1, h2, h3, h4, h5⟩
      exact ⟨h2, by omega, h1, fun j hj1 hj2 hj3 => h4 j hj1 (by omega) hj3, h5⟩
    · rintro ⟨h1, h2, h3, h4, h5⟩
      exact ⟨h3, h1, by omega, fun j hj1 hj2 hj3 => h4 j hj1 (by omega) hj3, h5⟩
  · rw [findPivotColumn, (findPivotColGo_none_acc st pr (st.nColumns - 2) 2).1]
    constructor
    · intro hall j h1 h2; exact hall j h1 (by omega)
    · intro hall j h1 h2; exact hall j h1 (by omega)

/-! ### Claim C6: infeasibility detection -/

/-- A state is in the infeasible exit condition exactly when the loop body
reaches a violated row with no pivot column and a non-positive T-column
entry. -/
theorem solveStep_eq_infeasible_iff (st : SimplexState) :
    solveStep st = .infeasible ↔
      ∃ r, findPivotRow st = some r ∧ findPivotColumn st r = none ∧
        st.tab r 1 ≤ 0 := by
  unfold solveStep
  rcases hr : findPivotRow st with _ | r
  · simp only []
    constructor
    · intro h; cases h
    · rintro ⟨r, hr2, _⟩; cases hr2
  · simp only []
    rcases hc : findPivotColumn st r with _ | c
    · simp only []
      by_cases ht : st.tab r 1 > 0
      · simp only [ht, if_pos]
        constructor
        · intro h; cases h
        · rintro ⟨r2, hr2, hc2, ht2⟩
          cases hr2
          exfalso
          omega
      · simp only [ht, if_neg, if_false]
        exact ⟨fun _ => ⟨r, rfl, hc, by omega⟩, fun _ => trivial⟩
    · simp only []
      constructor
      · intro h; cases h
      · rintro ⟨r2, hr2, hc2, _⟩
        cases hr2
        rw [hc] at hc2
        cases hc2

/-- Helper for C6: the loop returns `infeasible` exactly when some prefix of
continue-steps reaches a state in the infeasible exit condition within the
fuel. -/
theorem solveTableau_infeasible_iff :
    ∀ f st stF, solveTableau f st = .infeasible stF ↔
      ∃ k, k < f ∧ iterStep k st = some stF ∧ solveStep stF = .infeasible := by
  intro f
  induction f with
  | zero =>
    intro st stF
    constructor
    · intro h; cases h
    · rintro ⟨k, hk, _⟩; omega
  | succ f ih =>
    intro st stF
    simp only [solveTableau]
    rcases hs : solveStep st with st' | _ | _
    · simp only []
      rw [ih st' stF]
      constructor
      · rintro ⟨k, hk, hit, hbad⟩
        refine ⟨k + 1, by omega, ?_, hbad⟩
        simp only [iterStep, hs]
        exact hit
      · rintro ⟨k, hk, hit, hbad⟩
        rcases k with _ | k
        · simp only [iterStep, Option.some.injEq] at hit
          subst hit
          rw [hs] at hbad
          cases hbad
        · simp only [iterStep, hs] at hit
          exact ⟨k, by omega, hit, hbad⟩
    · simp only []
      constructor
      · intro h; cases h
      · rintro ⟨k, hk, hit, hbad⟩
        rcases k with _ | k
        · simp only [iterStep, Option.some.injEq] at hit
          subst hit
          rw [hs] at hbad
          cases hbad
        · simp only [iterStep, hs] at hit
          cases hit
    · simp only []
      constructor
      · intro h
        cases h
        exact ⟨0, by omega, rfl, hs⟩
      · rintro ⟨k, hk, hit, hbad⟩
        rcases k with _ | k
        · simp only [iterStep, Option.some.injEq] at hit
          subst hit
          rfl
        · simp only [iterStep, hs] at hit
          cases hit

/-- C6: `solveTableau` returns failure if and only if the loop reaches (by
continue-steps from the initial state, within the available fuel) a state with
a violated pivot row that has no pivot column and whose parameterT-column entry
is non-positive; and on the acyclic two-operation cycle A→B, B→A with latency 5
each, the solver reports infeasibility as a recoverable result: the schedule
entry point returns `none` (maps to `failure()` after `emitError`, not an
abort), writing nothing. -/
theorem c6_infeasibility_detection :
    (∀ f st stF, solveTableau f st = .infeasible stF ↔
      ∃ k, k < f ∧ iterStep k st = some stF ∧
        ∃ r, findPivotRow stF = some r ∧ findPivotColumn stF r = none ∧
          stF.tab r 1 ≤ 0) ∧
    (solveTableau 8 (buildTableau false twoCycleProblem)).isInfeasible = true ∧
    scheduleSimplexAcyclic 8 twoCycleProblem = none := by
  refine ⟨fun f st stF => ?_, by decide, by decide⟩
  rw [solveTableau_infeasible_iff f st stF]
  constructor
  · rintro ⟨k, hk, hit, hbad⟩
    exact ⟨k, hk, hit, (solveStep_eq_infeasible_iff stF).mp hbad⟩
  · rintro ⟨k, hk, hit, hbad⟩
    exact ⟨k, hk, hit, (solveStep_eq_infeasible_iff stF).mpr hbad⟩

/-! ### Claim C9: evolution of parameterT -/

/-- Helper: facts available when `findPivotRow` returns a row. -/
theorem findPivotRow_some_facts {st : SimplexState} {r : Nat}
    (h : findPivotRow st = some r) :
    1 ≤ r ∧ r < st.nRows ∧ rowValue st r < 0 := by
  rw [findPivotRow, findPivotRowGo_eq_some] at h
  exact ⟨h.1, by omega, h.2.2.1⟩

/-- Helper: facts available when `findPivotColumn` returns a column. -/
theorem findPivotColumn_some_facts {st : SimplexState} {pr c : Nat}
    (h : findPivotColumn st pr = some c) :
    2 ≤ c ∧ c < st.nColumns ∧ st.tab pr c < 0 ∧
      ∀ j, 2 ≤ j → j < st.nColumns → st.tab pr j < 0 →
        - st.tab 0 j ≤ - st.tab 0 c := by
  rw [findPivotColumn, (findPivotColGo_none_acc st pr (st.nColumns - 2) 2).2 c] at h
  exact ⟨h.2.1, by omega, h.1, fun j h1 h2 h3 => h.2.2.2.1 j h1 (by omega) h3⟩

/-- Helper: the T column is all zeroes in an acyclic initial tableau. -/
theorem buildTableau_acyclic_tcol (p : SchedProblem) :
    ∀ i, (buildTableau false p).tab i 1 = 0 := by
  intro i
  simp only [buildTableau]
  rcases i with _ | i
  · have h1 : (1 : Nat) ≠ 2 + p.lastOp := by omega
    simp [h1]
  · simp only [Nat.succ_ne_zero, if_false, Nat.add_sub_cancel]
    cases hd : p.deps.get? i with
    | none => simp [hd]
    | some d =>
      have h1 : (1 : Nat) ≠ 2 + d.dst := by omega
      have h2 : (1 : Nat) ≠ 2 + d.src := by omega
      simp [hd, constraintRowEntry, h1, h2]

/-- Helper: a continue-step out of a state with an all-zero T column keeps the
T column all zero and leaves parameterT unchanged. -/
theorem solveStep_cont_tcol {st st' : SimplexState}
    (hz : ∀ i, st.tab i 1 = 0) (h : solveStep st = .cont st') :
    (∀ i, st'.tab i 1 = 0) ∧ st'.parameterT = st.parameterT := by
  unfold solveStep at h
  split at h
  · cases h
  next r hr =>
    split at h
    next c hc =>
      simp only [StepRes.cont.injEq] at h
      subst h
      have hc2 : 2 ≤ c := (findPivotColumn_some_facts hc).1
      refine ⟨fun i => ?_, rfl⟩
      simp only [pivot]
      have h1c : (1 : Nat) ≠ c := by omega
      simp only [h1c, if_neg, if_false]
      by_cases hir : i = r
      · simp [hir, hz r]
      · simp [hir, hz i, hz r]
    next hc =>
      split at h
      next ht => exact absurd (hz r) (by omega)
      · cases h

/-- Helper: a continue-step never decreases parameterT when it is at least 1. -/
theorem solveStep_cont_parameterT_mono {st st' : SimplexState}
    (hT : 1 ≤ st.parameterT) (h : solveStep st = .cont st') :
    st.parameterT ≤ st'.parameterT ∧ 1 ≤ st'.parameterT := by
  unfold solveStep at h
  split at h
  · cases h
  next r hr =>
    have hrv : rowValue st r < 0 := (findPivotRow_some_facts hr).2.2
    split at h
    next c hc =>
      simp only [StepRes.cont.injEq] at h
      subst h
      exact ⟨le_refl _, hT⟩
    next hc =>
      split at h
      next ht =>
        simp only [StepRes.cont.injEq] at h
        subst h
        simp only []
        rw [rowValue] at hrv
        have he1 : st.tab r 0 < 0 := by nlinarith
        have hnn := grownParameterT_makes_nonneg he1 ht
        constructor
        · by_contra hgt
          push_neg at hgt
          nlinarith
        · by_contra hgt
          push_neg at hgt
          nlinarith
      · cases h

/-- Helper: any property preserved by continue-steps holds at every state the
solve loop reaches. -/
theorem iterStep_invariant {P : SimplexState → Prop}
    (hP : ∀ st st', P st → solveStep st = .cont st' → P st') :
    ∀ (k : Nat) (st st' : SimplexState), P st → iterStep k st = some st' → P st' := by
  intro k
  induction k with
  | zero =>
    intro st st' h0 h
    simp only [iterStep, Option.some.injEq] at h
    subst h
    exact h0
  | succ k ih =>
    intro st st' h0 h
    simp only [iterStep] at h
    rcases hs : solveStep st with st1 | _ | _ <;> rw [hs] at h
    · exact ih st1 st' (hP st st1 h0 hs) h
    · cases h
    · cases h

/-- C9: during an acyclic solve the parameter T is 0 at every state the solve
loop reaches (the T column is identically zero, so the growing branch never
fires and T is never modified after its initialization to 0); during a cyclic
solve T starts at 1, and at every reachable state it is at least 1 and a
further loop iteration never decreases it. -/
theorem c9_parameterT_evolution :
    (∀ p : SchedProblem, (buildTableau false p).parameterT = 0) ∧
    (∀ (p : SchedProblem) (k : Nat) (st' : SimplexState),
      iterStep k (buildTableau false p) = some st' → st'.parameterT = 0) ∧
    (∀ p : SchedProblem, (buildTableau true p).parameterT = 1) ∧
    (∀ (p : SchedProblem) (k : Nat) (st st' : SimplexState),
      iterStep k (buildTableau true p) = some st → solveStep st = .cont st' →
        1 ≤ st.parameterT ∧ st.parameterT ≤ st'.parameterT) := by
  refine ⟨fun p => rfl, fun p k st' h => ?_, fun p => rfl, fun p k st st' h hs => ?_⟩
  · have := iterStep_invariant
      (P := fun st => (∀ i, st.tab i 1 = 0) ∧ st.parameterT = 0)
      (fun st st1 hP hstep => by
        rcases solveStep_cont_tcol hP.1 hstep with ⟨hz, hT⟩
        exact ⟨hz, hT.trans hP.2⟩)
      k (buildTableau false p) st' ⟨buildTableau_acyclic_tcol p, rfl⟩ h
    exact this.2
  · have hT : 1 ≤ st.parameterT := by
      have := iterStep_invariant (P := fun st => 1 ≤ st.parameterT)
        (fun st st1 hP hstep => (solveStep_cont_parameterT_mono hP hstep).2)
        k (buildTableau true p) st (by norm_num [buildTableau]) h
      exact this
    exact ⟨hT, (solveStep_cont_parameterT_mono hT hs).1⟩

/-- Witness for C9 at concrete inputs: one loop step of the acyclic chain
example keeps T = 0, and the first loop step of the cyclic self-loop example
does not decrease T below its initial value 1. -/
theorem c9_parameterT_evolution_witness :
    (∃ st', iterStep 1 (buildTableau false chainProblem) = some st' ∧
      st'.parameterT = 0) ∧
    (1 ≤ (buildTableau true selfLoopProblem).parameterT ∧
      (buildTableau true selfLoopProblem).parameterT ≤
        (pivot (buildTableau true selfLoopProblem) 1 2).parameterT) :=
  ⟨⟨_, rfl, c9_parameterT_evolution.2.1 chainProblem 1 _ rfl⟩,
    c9_parameterT_evolution.2.2.2 selfLoopProblem 0 _ _ rfl rfl⟩

/-! ### Partition of variables between the basic and non-basic lists -/

/-- Dimensions of a tableau built for problem `p`: `nRows = 1 + |deps|`,
`nColumns = 2 + |ops|`.  Pivoting and parameter growth never change them. -/
def TableauDims (p : SchedProblem) (st : SimplexState) : Prop :=
  st.nRows = 1 + p.deps.length ∧ st.nColumns = 2 + p.nOps

/-- The basic/non-basic bookkeeping forms a partition of the `|ops| + |deps|`
variable ids: positions hold variable ids below `|ops| + |deps|`, ids appear at
most once over both lists, and every id appears somewhere. -/
structure VarPartition (p : SchedProblem) (st : SimplexState) : Prop where
  nb_lt : ∀ k, k < p.nOps → st.nonBasic k < p.nOps + p.deps.length
  b_lt : ∀ i, i < p.deps.length → st.basic i < p.nOps + p.deps.length
  nb_inj : ∀ k k', k < p.nOps → k' < p.nOps → st.nonBasic k = st.nonBasic k' → k = k'
  b_inj : ∀ i i', i < p.deps.length → i' < p.deps.length → st.basic i = st.basic i' → i = i'
  disj : ∀ k i, k < p.nOps → i < p.deps.length → st.nonBasic k ≠ st.basic i
  cover : ∀ v, v < p.nOps + p.deps.length →
    (∃ k, k < p.nOps ∧ st.nonBasic k = v) ∨ (∃ i, i < p.deps.length ∧ st.basic i = v)

/-- Helper: the initial tableau has the expected dimensions and a variable
partition (start-time variables non-basic, slack variables basic). -/
theorem buildTableau_partition (isCyclic : Bool) (p : SchedProblem) :
    TableauDims p (buildTableau isCyclic p) ∧
      VarPartition p (buildTableau isCyclic p) := by
  refine ⟨⟨rfl, rfl⟩, ?_⟩
  constructor
  · intro k hk; simp only [buildTableau]; omega
  · intro i hi; simp only [buildTableau]; omega
  · intro k k' _ _ h; simpa [buildTableau] using h
  · intro i i' _ _ h; simp only [buildTableau] at h; omega
  · intro k i hk hi; simp only [buildTableau]; omega
  · intro v hv
    by_cases hvN : v < p.nOps
    · exact Or.inl ⟨v, hvN, rfl⟩
    · exact Or.inr ⟨v - p.nOps, by omega, by simp only [buildTableau]; omega⟩

/-- Helper: a continue-step preserves the dimensions. -/
theorem solveStep_cont_dims {p : SchedProblem} {st st' : SimplexState}
    (hd : TableauDims p st) (h : solveStep st = .cont st') : TableauDims p st' := by
  unfold solveStep at h
  split at h
  · cases h
  next r hr =>
    split at h
    next c hc =>
      simp only [StepRes.cont.injEq] at h
      subst h
      exact hd
    next hc =>
      split at h
      next ht =>
        simp only [StepRes.cont.injEq] at h
        subst h
        exact hd
      · cases h

/-- Helper: a continue-step preserves the variable partition; the pivot case
exchanges exactly the ids at non-basic position `c - 2` and basic position
`r - 1`. -/
theorem pivot_partition {p : SchedProblem} {st : SimplexState} {r c : Nat}
    (hp : VarPartition p st)
    (hrD : r - 1 < p.deps.length) (hcN : c - 2 < p.nOps) :
    VarPartition p (pivot st r c) := by
  constructor
  · intro k hk
    simp only [pivot]
    by_cases hkc : k = c - 2
    · simp only [hkc, if_pos]; exact hp.b_lt _ hrD
    · simp only [hkc, if_neg, if_false]; exact hp.nb_lt _ hk
  · intro i hi
    simp only [pivot]
    by_cases hirr : i = r - 1
    · simp only [hirr, if_pos]; exact hp.nb_lt _ hcN
    · simp only [hirr, if_neg, if_false]; exact hp.b_lt _ hi
  · intro k k' hk hk'
    simp only [pivot]
    by_cases hkc : k = c - 2
    · by_cases hkc' : k' = c - 2
      · intro _; omega
      · simp only [hkc, hkc', if_pos, if_neg, if_false]
        intro hh
        exact absurd hh.symm (hp.disj k' (r - 1) hk' hrD)
    · by_cases hkc' : k' = c - 2
      · simp only [hkc, hkc', if_pos, if_neg, if_false]
        intro hh
        exact absurd hh (hp.disj k (r - 1) hk hrD)
      · simp only [hkc, hkc', if_neg, if_false]
        exact hp.nb_inj k k' hk hk'
  · intro i i' hi hi'
    simp only [pivot]
    by_cases hir : i = r - 1
    · by_cases hir' : i' = r - 1
      · intro _; omega
      · simp only [hir, hir', if_pos, if_neg, if_false]
        intro hh
        exact absurd hh (hp.disj (c - 2) i' hcN hi')
    · by_cases hir' : i' = r - 1
      · simp only [hir, hir', if_pos, if_neg, if_false]
        intro hh
        exact absurd hh.symm (hp.disj (c - 2) i hcN hi)
      · simp only [hir, hir', if_neg, if_false]
        exact hp.b_inj i i' hi hi'
  · intro k i hk hi
    simp only [pivot]
    by_cases hkc : k = c - 2
    · by_cases hir : i = r - 1
      · simp only [hkc, hir, if_pos]
        intro hh
        exact hp.disj (c - 2) (r - 1) hcN hrD hh.symm
      · simp only [hkc, hir, if_pos, if_neg, if_false]
        intro hh
        exact hir ((hp.b_inj (r - 1) i hrD hi hh).symm)
    · by_cases hir : i = r - 1
      · simp only [hkc, hir, if_pos, if_neg, if_false]
        intro hh
        exact hkc (hp.nb_inj k (c - 2) hk hcN hh)
      · simp only [hkc, hir, if_neg, if_false]
        exact hp.disj k i hk hi
  · intro v hv
    rcases hp.cover v hv with ⟨k, hk, hkv⟩ | ⟨i, hi, hiv⟩
    · by_cases hkc : k = c - 2
      · refine Or.inr ⟨r - 1, hrD, ?_⟩
        simp only [pivot, if_pos]
        rw [← hkc]; exact hkv
      · refine Or.inl ⟨k, hk, ?_⟩
        simp only [pivot]
        simp only [hkc, if_neg, if_false]
        exact hkv
    · by_cases hir : i = r - 1
      · refine Or.inl ⟨c - 2, hcN, ?_⟩
        simp only [pivot, if_pos]
        rw [← hir]; exact hiv
      · refine Or.inr ⟨i, hi, ?_⟩
        simp only [pivot]
        simp only [hir, if_neg, if_false]
        exact hiv

/-- Helper: a continue-step preserves the variable partition; the pivot case
exchanges exactly the ids at non-basic position `c - 2` and basic position
`r - 1`. -/
theorem solveStep_cont_partition {p : SchedProblem} {st st' : SimplexState}
    (hd : TableauDims p st) (hp : VarPartition p st)
    (h : solveStep st = .cont st') : VarPartition p st' := by
  unfold solveStep at h
  split at h
  · cases h
  next r hr =>
    split at h
    next c hc =>
      simp only [StepRes.cont.injEq] at h
      subst h
      have hrb := findPivotRow_some_facts hr
      have hcb := findPivotColumn_some_facts hc
      have hrD : r - 1 < p.deps.length := by
        rcases hd with ⟨hd1, _⟩; omega
      have hcN : c - 2 < p.nOps := by
        rcases hd with ⟨_, hd2⟩; omega
      exact pivot_partition hp hrD hcN
    next hc =>
      split at h
      next ht =>
        simp only [StepRes.cont.injEq] at h
        subst h
        exact { nb_lt := hp.nb_lt, b_lt := hp.b_lt, nb_inj := hp.nb_inj,
                b_inj := hp.b_inj, disj := hp.disj, cover := hp.cover }
      · cases h

/-! ### Claim C10: writes to the external problem -/

/-- Whether a write event sets the start time of operation `v`. -/
def WriteEvent.isStartOf (v : Nat) : WriteEvent → Bool
  | .setStart w _ => w == v
  | .setII _ => false

/-- Whether a write event sets the initiation interval. -/
def WriteEvent.isSetII : WriteEvent → Bool
  | .setStart _ _ => false
  | .setII _ => true

/-- Number of events in a write log that set operation `v`'s start time. -/
def startWritesFor (v : Nat) (l : List WriteEvent) : Nat :=
  (l.filter (WriteEvent.isStartOf v)).length

/-- Helper: counting a predicate after a filterMap. -/
theorem length_filter_filterMap {α β : Type} (g : α → Option β) (q : β → Bool) :
    ∀ l : List α, ((l.filterMap g).filter q).length =
      l.countP (fun a => ((g a).map q).getD false) := by
  intro l
  induction l with
  | nil => rfl
  | cons a l ih =>
    rw [List.filterMap_cons, List.countP_cons]
    rcases hg : g a with _ | b
    · simp only [hg, Option.map_none', Option.getD_none, Bool.false_eq_true,
        if_false, Nat.add_zero] at *
      exact ih
    · simp only [hg, Option.map_some', Option.getD_some]
      by_cases hq : q b = true
      · simp only [List.filter_cons, hq, if_true, List.length_cons, ih]
      · simp only [Bool.not_eq_true] at hq
        simp only [List.filter_cons, hq, Bool.false_eq_true, if_false, ih,
          Nat.add_zero]

/-- Helper: counting over a range with a uniquely satisfied predicate. -/
theorem countP_range_eq_one {b : Nat → Bool} {n i0 : Nat} (hi0 : i0 < n)
    (hb : b i0 = true) (huniq : ∀ i, i < n → b i = true → i = i0) :
    (List.range n).countP b = 1 := by
  induction n with
  | zero => omega
  | succ n ih =>
    rw [List.range_succ, List.countP_append]
    by_cases hin : i0 = n
    · subst hin
      have hz : (List.range i0).countP b = 0 := by
        rw [List.countP_eq_zero]
        intro i hi
        rw [List.mem_range] at hi
        intro hbi
        exact absurd (huniq i (by omega) hbi) (by omega)
      rw [hz]
      simp [hb]
    · have h1 : (List.range n).countP b = 1 :=
        ih (by omega) (fun i hi hbi => huniq i (by omega) hbi)
      have hbn : b n = false := by
        rcases hbn : b n with _ | _
        · rfl
        · exact absurd (huniq n (by omega) hbn).symm hin
      rw [h1]
      simp [hbn]

/-- Helper: counting over a range with an unsatisfied predicate. -/
theorem countP_range_eq_zero {b : Nat → Bool} {n : Nat}
    (h : ∀ i, i < n → b i = false) : (List.range n).countP b = 0 := by
  rw [List.countP_eq_zero]
  intro i hi
  rw [List.mem_range] at hi
  simp [h i hi]

/-- Helper: the loop returns `optimal` exactly by reaching, within the fuel, a
state with no violated row. -/
theorem solveTableau_optimal_reaches :
    ∀ f st stF, solveTableau f st = .optimal stF →
      ∃ k, k < f ∧ iterStep k st = some stF ∧ findPivotRow stF = none := by
  intro f
  induction f with
  | zero => intro st stF h; cases h
  | succ f ih =>
    intro st stF h
    rw [solveTableau] at h
    rcases hs : solveStep st with st1 | _ | _ <;> rw [hs] at h
    · rcases ih st1 stF h with ⟨k, hk, hit, hopt⟩
      refine ⟨k + 1, by omega, ?_, hopt⟩
      simp only [iterStep, hs]
      exact hit
    · cases h
      refine ⟨0, by omega, rfl, ?_⟩
      unfold solveStep at hs
      split at hs
      next hr => exact hr
      next r hr =>
        split at hs
        · cases hs
        · split at hs
          · cases hs
          · cases hs
    · cases h

/-- Helper: with intact dimensions and variable partition, `storeStartTimes`
emits exactly one start-time write for each operation. -/
theorem storeStartTimes_count {p : SchedProblem} {st : SimplexState}
    (hd : TableauDims p st) (hpart : VarPartition p st)
    {v : Nat} (hv : v < p.nOps) :
    startWritesFor v (storeStartTimes p st) = 1 := by
  have hR : st.nRows - 1 = p.deps.length := by rcases hd with ⟨h1, _⟩; omega
  have hC : st.nColumns - 2 = p.nOps := by rcases hd with ⟨_, h2⟩; omega
  rw [startWritesFor, storeStartTimes, hR, hC, List.filter_append,
    List.length_append, length_filter_filterMap, length_filter_filterMap]
  have hbA : ∀ i,
      (((if st.basic i < p.nOps then
          some (WriteEvent.setStart (st.basic i) (rowValue st (1 + i)))
        else none).map (WriteEvent.isStartOf v)).getD false) = true ↔
        (st.basic i < p.nOps ∧ st.basic i = v) := by
    intro i
    by_cases hb : st.basic i < p.nOps
    · simp [hb, WriteEvent.isStartOf]
    · simp [hb]
  have hbB : ∀ k,
      (((if st.nonBasic k < p.nOps then
          some (WriteEvent.setStart (st.nonBasic k) 0)
        else none).map (WriteEvent.isStartOf v)).getD false) = true ↔
        (st.nonBasic k < p.nOps ∧ st.nonBasic k = v) := by
    intro k
    by_cases hb : st.nonBasic k < p.nOps
    · simp [hb, WriteEvent.isStartOf]
    · simp [hb]
  rcases hpart.cover v (by omega) with ⟨k0, hk0, hk0v⟩ | ⟨i0, hi0, hi0v⟩
  · have hA : (List.range p.deps.length).countP
        (fun i => ((if st.basic i < p.nOps then
          some (WriteEvent.setStart (st.basic i) (rowValue st (1 + i)))
        else none).map (WriteEvent.isStartOf v)).getD false) = 0 := by
      apply countP_range_eq_zero
      intro i hi
      rcases hres : (((if st.basic i < p.nOps then
          some (WriteEvent.setStart (st.basic i) (rowValue st (1 + i)))
        else none).map (WriteEvent.isStartOf v)).getD false) with _ | _
      · rfl
      · exfalso
        rcases (hbA i).mp hres with ⟨_, hbv⟩
        exact hpart.disj k0 i hk0 hi (hk0v.trans hbv.symm)
    have hB : (List.range p.nOps).countP
        (fun k => ((if st.nonBasic k < p.nOps then
          some (WriteEvent.setStart (st.nonBasic k) 0)
        else none).map (WriteEvent.isStartOf v)).getD false) = 1 := by
      apply countP_range_eq_one hk0 ((hbB k0).mpr ⟨hk0v ▸ hv, hk0v⟩)
      intro k hk hbk
      rcases (hbB k).mp hbk with ⟨_, hkv⟩
      exact hpart.nb_inj k k0 hk hk0 (hkv.trans hk0v.symm)
    rw [hA, hB]
  · have hA : (List.range p.deps.length).countP
        (fun i => ((if st.basic i < p.nOps then
          some (WriteEvent.setStart (st.basic i) (rowValue st (1 + i)))
        else none).map (WriteEvent.isStartOf v)).getD false) = 1 := by
      apply countP_range_eq_one hi0 ((hbA i0).mpr ⟨hi0v ▸ hv, hi0v⟩)
      intro i hi hbi
      rcases (hbA i).mp hbi with ⟨_, hiv⟩
      exact hpart.b_inj i i0 hi hi0 (hiv.trans hi0v.symm)
    have hB : (List.range p.nOps).countP
        (fun k => ((if st.nonBasic k < p.nOps then
          some (WriteEvent.setStart (st.nonBasic k) 0)
        else none).map (WriteEvent.isStartOf v)).getD false) = 0 := by
      apply countP_range_eq_zero
      intro k hk
      rcases hres : (((if st.nonBasic k < p.nOps then
          some (WriteEvent.setStart (st.nonBasic k) 0)
        else none).map (WriteEvent.isStartOf v)).getD false) with _ | _
      · rfl
      · exfalso
        rcases (hbB k).mp hres with ⟨_, hkv⟩
        exact hpart.disj k i0 hk hi0 (hkv.trans hi0v.symm)
    rw [hA, hB]

/-- Helper: `storeStartTimes` never writes the initiation interval. -/
theorem storeStartTimes_no_setII (p : SchedProblem) (st : SimplexState) :
    ∀ e ∈ storeStartTimes p st, e.isSetII = false := by
  intro e he
  rw [storeStartTimes, List.mem_append] at he
  rcases he with he | he <;> rw [List.mem_filterMap] at he <;>
    rcases he with ⟨i, _, hi⟩ <;> split at hi
  · simp only [Option.some.injEq] at hi
    subst hi
    rfl
  · cases hi
  · simp only [Option.some.injEq] at hi
    subst hi
    rfl
  · cases hi

/-- Helper: the final state of a successful solve keeps the dimensions and the
variable partition of the built tableau. -/
theorem solveTableau_optimal_partition {p : SchedProblem} {isCyclic : Bool}
    {f : Nat} {st : SimplexState}
    (h : solveTableau f (buildTableau isCyclic p) = .optimal st) :
    TableauDims p st ∧ VarPartition p st := by
  rcases solveTableau_optimal_reaches f _ st h with ⟨k, _, hit, _⟩
  exact iterStep_invariant
    (P := fun s => TableauDims p s ∧ VarPartition p s)
    (fun s s' hP hs =>
      ⟨solveStep_cont_dims hP.1 hs, solveStep_cont_partition hP.1 hP.2 hs⟩)
    k _ st (buildTableau_partition isCyclic p) hit

/-- C10: the external problem is only mutated on success, after the solve loop
terminates.  In the embedding the mutations are the returned write log: a
failed (or fuel-starved) solve returns `none`, i.e. writes neither start times
nor an initiation interval; a successful acyclic schedule writes exactly one
start time per operation and no initiation interval; a successful cyclic
schedule writes the initiation interval once, first, followed by exactly one
start time per operation. -/
theorem c10_mutation_only_on_success :
    (∀ (p : SchedProblem) (f : Nat),
      (∀ st, solveTableau f (buildTableau false p) ≠ .optimal st) →
        scheduleSimplexAcyclic f p = none) ∧
    (∀ (p : SchedProblem) (f : Nat),
      (∀ st, solveTableau f (buildTableau true p) ≠ .optimal st) →
        scheduleSimplexCyclic f p = none) ∧
    (∀ (p : SchedProblem) (f : Nat) (log : List WriteEvent),
      scheduleSimplexAcyclic f p = some log →
        (∀ v, v < p.nOps → startWritesFor v log = 1) ∧
        (∀ e ∈ log, e.isSetII = false)) ∧
    (∀ (p : SchedProblem) (f : Nat) (log : List WriteEvent),
      scheduleSimplexCyclic f p = some log →
        ∃ ii tail, log = WriteEvent.setII ii :: tail ∧
          (∀ v, v < p.nOps → startWritesFor v tail = 1) ∧
          (∀ e ∈ tail, e.isSetII = false)) := by
  refine ⟨fun p f hne => ?_, fun p f hne => ?_, fun p f log h => ?_, fun p f log h => ?_⟩
  · rw [scheduleSimplexAcyclic]
    rcases hs : solveTableau f (buildTableau false p) with st | st | st
    · exact absurd hs (hne st)
    · rfl
    · rfl
  · rw [scheduleSimplexCyclic]
    rcases hs : solveTableau f (buildTableau true p) with st | st | st
    · exact absurd hs (hne st)
    · rfl
    · rfl
  · rw [scheduleSimplexAcyclic] at h
    rcases hs : solveTableau f (buildTableau false p) with st | st | st <;>
      rw [hs] at h
    · simp only [Option.some.injEq] at h
      subst h
      rcases solveTableau_optimal_partition hs with ⟨hd, hpart⟩
      exact ⟨fun v hv => storeStartTimes_count hd hpart hv,
        storeStartTimes_no_setII p st⟩
    · cases h
    · cases h
  · rw [scheduleSimplexCyclic] at h
    rcases hs : solveTableau f (buildTableau true p) with st | st | st <;>
      rw [hs] at h
    · simp only [Option.some.injEq] at h
      subst h
      rcases solveTableau_optimal_partition hs with ⟨hd, hpart⟩
      exact ⟨st.parameterT, storeStartTimes p st, rfl,
        fun v hv => storeStartTimes_count hd hpart hv,
        storeStartTimes_no_setII p st⟩
    · cases h
    · cases h

/-- Witness for C10 at concrete inputs: the infeasible two-operation cycle
produces no writes, and the successful acyclic chain run writes exactly one
start time per operation and no initiation interval. -/
theorem c10_mutation_only_on_success_witness :
    scheduleSimplexAcyclic 8 twoCycleProblem = none ∧
    (∀ v, v < chainProblem.nOps →
      startWritesFor v ((scheduleSimplexAcyclic 8 chainProblem).getD []) = 1) ∧
    (∃ ii tail, (scheduleSimplexCyclic 8 selfLoopProblem).getD [] =
      WriteEvent.setII ii :: tail ∧
      ∀ v, v < selfLoopProblem.nOps → startWritesFor v tail = 1) := by
  refine ⟨?_, ?_, ?_⟩
  · have hsolve : (solveTableau 8 (buildTableau false twoCycleProblem)).isInfeasible
        = true := by decide
    exact c10_mutation_only_on_success.1 twoCycleProblem 8
      (fun st h => by rw [h] at hsolve; simp [SolveResult.isInfeasible] at hsolve)
  · intro v hv
    have := (c10_mutation_only_on_success.2.2.1 chainProblem 8
      ((scheduleSimplexAcyclic 8 chainProblem).getD []) (by decide)).1 v hv
    exact this
  · rcases c10_mutation_only_on_success.2.2.2 selfLoopProblem 8
      ((scheduleSimplexCyclic 8 selfLoopProblem).getD []) (by decide) with
      ⟨ii, tail, heq, hcount, _⟩
    exact ⟨ii, tail, heq, hcount⟩

/-! ### Claim C4: the grown parameter equals the ceiling, minimally -/

/-- C4: when the solve loop finds a violated pivot row with no pivot column
and a strictly positive parameterT-column entry, it sets parameterT to
`(-entry1Col - 1) / entryTCol + 1` in integer arithmetic (`grownParameterT`,
used verbatim by `solveStep`), and under `entry1Col < 0` this value equals
`⌈-entry1Col / entryTCol⌉` and is the smallest integer T making
`entry1Col + T * entryTCol` non-negative. -/
theorem c4_grown_parameter_is_ceil :
    (∀ (st : SimplexState) (r : Nat), findPivotRow st = some r →
      findPivotColumn st r = none → 0 < st.tab r 1 →
      solveStep st = .cont
        { st with parameterT := grownParameterT (st.tab r 0) (st.tab r 1) }) ∧
    (∀ e1 eT : Int, e1 < 0 → 0 < eT →
      grownParameterT e1 eT = ⌈(-e1 : ℚ) / (eT : ℚ)⌉ ∧
      0 ≤ e1 + grownParameterT e1 eT * eT ∧
      ∀ T : Int, 0 ≤ e1 + T * eT → grownParameterT e1 eT ≤ T) := by
  constructor
  · intro st r hr hc ht
    unfold solveStep
    simp [hr, hc, ht]
  · intro e1 eT h1 hT
    refine ⟨?_, grownParameterT_makes_nonneg h1 hT, fun T hfeas =>
      grownParameterT_minimal h1 hT hfeas⟩
    have hTQ : (0 : ℚ) < (eT : ℚ) := by exact_mod_cast hT
    apply le_antisymm
    · have hle : ((-e1 : Int) : ℚ) / (eT : ℚ) ≤ ((⌈(-e1 : ℚ) / (eT : ℚ)⌉ : Int) : ℚ) := by
        push_cast
        exact Int.le_ceil _
      have hfeas : 0 ≤ e1 + ⌈(-e1 : ℚ) / (eT : ℚ)⌉ * eT := by
        rw [div_le_iff hTQ] at hle
        have : (-e1 : ℚ) ≤ ((⌈(-e1 : ℚ) / (eT : ℚ)⌉ * eT : Int) : ℚ) := by
          push_cast
          push_cast at hle
          exact hle
        have h2 : -e1 ≤ ⌈(-e1 : ℚ) / (eT : ℚ)⌉ * eT := by exact_mod_cast this
        omega
      exact grownParameterT_minimal h1 hT hfeas
    · rw [Int.ceil_le]
      have hnn := grownParameterT_makes_nonneg h1 hT
      rw [div_le_iff hTQ]
      have : (-e1 : Int) ≤ grownParameterT e1 eT * eT := by omega
      exact_mod_cast this

/-- Witness for C4 at a concrete input: entry1Col = -5, entryTCol = 2 gives
the new parameter 3 = ceil(5/2), which is feasible and minimal. -/
theorem c4_grown_parameter_is_ceil_witness :
    grownParameterT (-5) 2 = 3 ∧
    0 ≤ (-5 : Int) + grownParameterT (-5) 2 * 2 ∧
    (∀ T : Int, 0 ≤ -5 + T * 2 → grownParameterT (-5) 2 ≤ T) := by
  have h := c4_grown_parameter_is_ceil.2 (-5) 2 (by norm_num) (by norm_num)
  refine ⟨?_, h.2.1, h.2.2⟩
  rw [h.1]
  rw [Int.ceil_eq_iff]
  norm_num

/-! ### Claims C3 and C5: the full-system view of the tableau

Every constraint row of the tableau represents one linear equation over the
`|ops| + |deps|` variables: the row's basic variable has coefficient 1, the
non-basic variable sitting in column `2 + k` has coefficient
`tableau[row][2 + k]`, and the row additionally carries the constant
coefficient (column 0) and the T coefficient (column 1).  Pivoting is an
invertible sequence of elementary row operations on these equations. -/

/-- Helper: a range sum of an if-collapse with a uniquely attained index. -/
theorem sum_range_ite_unique {f : Nat → Nat} {g : Nat → Int} {n k0 v : Nat}
    (hk0 : k0 < n) (hfk0 : f k0 = v) (huniq : ∀ k, k < n → f k = v → k = k0) :
    (∑ k in Finset.range n, if f k = v then g k else 0) = g k0 := by
  rw [Finset.sum_eq_single k0]
  · rw [if_pos hfk0]
  · intro k hk hne
    rw [Finset.mem_range] at hk
    rw [if_neg]
    intro hfk
    exact hne (huniq k hk hfk)
  · intro hk0m
    exact absurd (Finset.mem_range.mpr hk0) hk0m

/-- Helper: a range sum of an if-collapse with no attained index. -/
theorem sum_range_ite_zero {f : Nat → Nat} {g : Nat → Int} {n v : Nat}
    (h : ∀ k, k < n → f k ≠ v) :
    (∑ k in Finset.range n, if f k = v then g k else 0) = 0 := by
  apply Finset.sum_eq_zero
  intro k hk
  rw [Finset.mem_range] at hk
  rw [if_neg (h k hk)]

/-- Coefficient of variable `v` in the equation carried by constraint row
`1 + i`: 1 on the row's basic variable, the stored tableau entry on each
non-basic variable, 0 elsewhere. -/
def varCoeff (p : SchedProblem) (st : SimplexState) (i v : Nat) : Int :=
  (∑ k in Finset.range p.nOps, if st.nonBasic k = v then st.tab (1 + i) (2 + k) else 0) +
  (if st.basic i = v then 1 else 0)

/-- Helper: the coefficient of the non-basic variable at column `2 + k` is the
stored entry. -/
theorem varCoeff_nonBasic {p : SchedProblem} {st : SimplexState}
    (hp : VarPartition p st) {k i : Nat} (hk : k < p.nOps) (hi : i < p.deps.length) :
    varCoeff p st i (st.nonBasic k) = st.tab (1 + i) (2 + k) := by
  rw [varCoeff, sum_range_ite_unique hk rfl
    (fun k' hk' h => hp.nb_inj k' k hk' hk h),
    if_neg fun h => hp.disj k i hk hi h.symm, add_zero]

/-- Helper: the coefficient of the basic variable of row `1 + j` is the
Kronecker delta. -/
theorem varCoeff_basic {p : SchedProblem} {st : SimplexState}
    (hp : VarPartition p st) {j i : Nat} (hj : j < p.deps.length)
    (hi : i < p.deps.length) :
    varCoeff p st i (st.basic j) = if i = j then 1 else 0 := by
  rw [varCoeff, sum_range_ite_zero (fun k hk => hp.disj k j hk hj)]
  rw [zero_add]
  by_cases hij : i = j
  · subst hij
    rw [if_pos rfl, if_pos rfl]
  · rw [if_neg fun h => hij (hp.b_inj i j hi hj h), if_neg hij]

/-- Variable coefficients of the freshly built tableau: row `i` for dependence
`d` carries -1 on the destination's start variable, +1 on the source's (unless
overwritten by a self-dependence), and +1 on its own slack variable
`nOps + i`. -/
def initVarCoeff (p : SchedProblem) (i v : Nat) : Int :=
  match p.deps.get? i with
  | some d =>
    if v < p.nOps then (if v = d.dst then -1 else if v = d.src then 1 else 0)
    else (if v = p.nOps + i then 1 else 0)
  | none => 0

/-- Helper: every initial coefficient is -1, 0 or 1. -/
theorem initVarCoeff_mem (p : SchedProblem) (i v : Nat) :
    initVarCoeff p i v ∈ ({-1, 0, 1} : Set Int) := by
  rw [initVarCoeff]
  rcases p.deps.get? i with _ | d
  · simp
  · simp only []
    split
    · split
      · simp
      · split <;> simp
    · split <;> simp

/-- Helper: the built tableau realizes `initVarCoeff`. -/
theorem varCoeff_buildTableau (isCyclic : Bool) (p : SchedProblem)
    {i : Nat} (hi : i < p.deps.length) (v : Nat) :
    varCoeff p (buildTableau isCyclic p) i v = initVarCoeff p i v := by
  rcases hd : p.deps.get? i with _ | d
  · rw [List.get?_eq_none] at hd
    omega
  · rw [varCoeff, initVarCoeff, hd]
    simp only [buildTableau]
    have hne0 : ¬ (1 + i = 0) := by omega
    simp only [hne0, if_false, Nat.add_sub_cancel_left, hd]
    by_cases hv : v < p.nOps
    · rw [sum_range_ite_unique hv rfl (fun k _ h => h), if_pos hv,
        if_neg (by omega : ¬ p.nOps + i = v), add_zero]
      rw [constraintRowEntry]
      by_cases h1 : v = d.dst
      · rw [if_pos (show 2 + v = 2 + d.dst by omega), if_pos h1]
      · rw [if_neg (show ¬ 2 + v = 2 + d.dst by omega)]
        by_cases h2 : v = d.src
        · rw [if_pos (show 2 + v = 2 + d.src by omega), if_neg h1, if_pos h2]
        · rw [if_neg (show ¬ 2 + v = 2 + d.src by omega),
            if_neg (show ¬ 2 + v = 0 by omega), if_neg (show ¬ 2 + v = 1 by omega),
            if_neg h1, if_neg h2]
    · rw [sum_range_ite_zero (fun k hk h => by omega), zero_add, if_neg hv]
      by_cases h3 : v = p.nOps + i
      · rw [if_pos (by omega : p.nOps + i = v), if_pos h3]
      · rw [if_neg (by omega : ¬ p.nOps + i = v), if_neg h3]

/-- Helper: a pivot on a pivot element -1 transforms each row equation by the
corresponding elementary row operations: the pivot row is negated, and every
other row gets the pivot row scaled by its pivot-column entry added. -/
theorem varCoeff_pivot {p : SchedProblem} {st : SimplexState}
    (hp : VarPartition p st) {r c : Nat}
    (hr1 : 1 ≤ r) (hc2 : 2 ≤ c)
    (hrD : r - 1 < p.deps.length) (hcN : c - 2 < p.nOps)
    (hpel : st.tab r c = -1)
    {i : Nat} (hi : i < p.deps.length) {v : Nat} (hv : v < p.nOps + p.deps.length) :
    varCoeff p (pivot st r c) i v =
      if i = r - 1 then - varCoeff p st (r - 1) v
      else varCoeff p st i v + st.tab (1 + i) c * varCoeff p st (r - 1) v := by
  have hp' := pivot_partition hp hrD hcN
  have h1r : 1 + (r - 1) = r := by omega
  have h2c : 2 + (c - 2) = c := by omega
  rcases hp.cover v hv with ⟨k, hk, hkv⟩ | ⟨j, hj, hjv⟩
  · subst hkv
    by_cases hkc : k = c - 2
    · subst hkc
      have hb : (pivot st r c).basic (r - 1) = st.nonBasic (c - 2) := by
        simp [pivot]
      have hL : varCoeff p (pivot st r c) i (st.nonBasic (c - 2)) =
          if i = r - 1 then 1 else 0 := by
        rw [← hb, varCoeff_basic hp' hrD hi]
      have hRr : varCoeff p st (r - 1) (st.nonBasic (c - 2)) = -1 := by
        rw [varCoeff_nonBasic hp hcN hrD, h1r, h2c, hpel]
      have hRi : varCoeff p st i (st.nonBasic (c - 2)) = st.tab (1 + i) c := by
        rw [varCoeff_nonBasic hp hcN hi, h2c]
      rw [hL, hRr, hRi]
      by_cases hir : i = r - 1
      · rw [if_pos hir, if_pos hir]; ring
      · rw [if_neg hir, if_neg hir]; ring
    · have hnb : (pivot st r c).nonBasic k = st.nonBasic k := by
        simp [pivot, hkc]
      have h2kc : ¬ (2 + k = c) := by omega
      have hL : varCoeff p (pivot st r c) i (st.nonBasic k) =
          (pivot st r c).tab (1 + i) (2 + k) := by
        rw [← hnb, varCoeff_nonBasic hp' hk hi]
      rw [hL, varCoeff_nonBasic hp hk hi, varCoeff_nonBasic hp hk hrD, h1r]
      have htab : (pivot st r c).tab (1 + i) (2 + k) =
          if 1 + i = r then - st.tab r (2 + k)
          else st.tab (1 + i) (2 + k) + st.tab (1 + i) c * st.tab r (2 + k) := by
        simp only [pivot]
        rw [if_neg h2kc]
      rw [htab]
      by_cases hir : i = r - 1
      · subst hir
        rw [if_pos h1r, if_pos rfl]
      · rw [if_neg (show ¬ 1 + i = r by omega), if_neg hir]
  · subst hjv
    by_cases hjr : j = r - 1
    · subst hjr
      have hnb : (pivot st r c).nonBasic (c - 2) = st.basic (r - 1) := by
        simp [pivot]
      have hL : varCoeff p (pivot st r c) i (st.basic (r - 1)) =
          (pivot st r c).tab (1 + i) c := by
        rw [← hnb, varCoeff_nonBasic hp' hcN hi, h2c]
      have hself : varCoeff p st (r - 1) (st.basic (r - 1)) = 1 := by
        rw [varCoeff_basic hp hrD hrD, if_pos rfl]
      have hcoef : varCoeff p st i (st.basic (r - 1)) = if i = r - 1 then 1 else 0 :=
        varCoeff_basic hp hrD hi
      have htab : (pivot st r c).tab (1 + i) c =
          if 1 + i = r then (-1 : Int) else st.tab (1 + i) c := by
        simp [pivot]
      rw [hL, htab, hself, hcoef]
      by_cases hir : i = r - 1
      · subst hir
        rw [if_pos h1r, if_pos rfl]
      · rw [if_neg (show ¬ 1 + i = r by omega), if_neg hir, if_neg hir]
        ring
    · have hb : (pivot st r c).basic j = st.basic j := by
        simp [pivot, hjr]
      have hL : varCoeff p (pivot st r c) i (st.basic j) =
          if i = j then 1 else 0 := by
        rw [← hb, varCoeff_basic hp' hj hi]
      rw [hL, varCoeff_basic hp hj hi, varCoeff_basic hp hj hrD,
        if_neg (by omega : ¬ r - 1 = j)]
      by_cases hir : i = r - 1
      · rw [if_pos hir, if_neg (by omega : ¬ i = j)]
        ring
      · rw [if_neg hir]
        ring

/-- The matrix of variable coefficients carried by the constraint rows. -/
def varMat (p : SchedProblem) (st : SimplexState) :
    Matrix (Fin p.deps.length) (Fin (p.nOps + p.deps.length)) Int :=
  Matrix.of fun i v => varCoeff p st i v

/-- The constant (column 0) coefficients of the constraint rows. -/
def c0vec (p : SchedProblem) (st : SimplexState) : Fin p.deps.length → Int :=
  fun i => st.tab (1 + i) 0

/-- The parameterT (column 1) coefficients of the constraint rows. -/
def cTvec (p : SchedProblem) (st : SimplexState) : Fin p.deps.length → Int :=
  fun i => st.tab (1 + i) 1

/-- SysInv: the current row equations are an (invertible, as shown later)
integer linear recombination of the built tableau's row equations.  `R` is the
accumulated product of the elementary row operations performed by pivoting. -/
def SysInv (isCyclic : Bool) (p : SchedProblem) (st : SimplexState) : Prop :=
  ∃ R : Matrix (Fin p.deps.length) (Fin p.deps.length) Int,
    varMat p st = R * varMat p (buildTableau isCyclic p) ∧
    c0vec p st = R.mulVec (c0vec p (buildTableau isCyclic p)) ∧
    cTvec p st = R.mulVec (cTvec p (buildTableau isCyclic p))

/-- Helper: the built tableau satisfies SysInv (with the identity). -/
theorem sysInv_buildTableau (isCyclic : Bool) (p : SchedProblem) :
    SysInv isCyclic p (buildTableau isCyclic p) :=
  ⟨1, by rw [Matrix.one_mul], by rw [Matrix.one_mulVec], by rw [Matrix.one_mulVec]⟩

/-- Column index (into the variable columns) of the basic variable of
constraint row `1 + i`; the modulus keeps the definition total, and equals the
plain value under the partition invariant. -/
def basisCols (p : SchedProblem) (st : SimplexState)
    (i : Fin p.deps.length) : Fin (p.nOps + p.deps.length) :=
  ⟨st.basic i % (p.nOps + p.deps.length),
    Nat.mod_lt _ (Nat.lt_of_le_of_lt (Nat.zero_le _)
      (Nat.lt_of_lt_of_le i.isLt (Nat.le_add_left _ _)))⟩

/-- Helper: under the partition invariant the basis column is the basic id. -/
theorem basisCols_val {p : SchedProblem} {st : SimplexState}
    (hp : VarPartition p st) (i : Fin p.deps.length) :
    (basisCols p st i : Nat) = st.basic i :=
  Nat.mod_eq_of_lt (hp.b_lt i i.isLt)

/-- Helper: the current system is in solved form with respect to its basis:
restricted to the basic variables' columns it is the identity. -/
theorem varMat_basisCols {p : SchedProblem} {st : SimplexState}
    (hp : VarPartition p st) :
    (varMat p st).submatrix id (basisCols p st) = 1 := by
  ext i j
  rw [Matrix.submatrix_apply, Matrix.one_apply]
  show varCoeff p st i ((basisCols p st j : Nat)) = _
  rw [basisCols_val hp j, varCoeff_basic hp j.isLt i.isLt]
  by_cases hij : i = j
  · rw [if_pos (by rw [hij]), if_pos hij]
  · rw [if_neg (fun h => hij (Fin.ext h)), if_neg hij]

/-- Helper: restricting columns commutes with matrix multiplication on the
left factor kept whole. -/
theorem submatrix_id_mul {l m n o : Type} [Fintype m]
    (R : Matrix l m Int) (M : Matrix m n Int) (g : o → n) :
    (R * M).submatrix id g = R * (M.submatrix id g) := by
  ext i j
  simp [Matrix.mul_apply, Matrix.submatrix_apply]

/-- Helper: case list for membership in {-1, 0, 1}. -/
theorem memS_cases {a : Int} (h : a ∈ ({-1, 0, 1} : Set Int)) :
    a = -1 ∨ a = 0 ∨ a = 1 := by
  simpa [Set.mem_insert_iff, Set.mem_singleton_iff] using h

/-- Helper: building membership in {-1, 0, 1}. -/
theorem memS_of {a : Int} (h : a = -1 ∨ a = 0 ∨ a = 1) :
    a ∈ ({-1, 0, 1} : Set Int) := by
  rcases h with h | h | h <;> subst h <;>
    simp [Set.mem_insert_iff, Set.mem_singleton_iff]

/-- Helper: {-1, 0, 1} is closed under negation. -/
theorem memS_neg {a : Int} (h : a ∈ ({-1, 0, 1} : Set Int)) :
    -a ∈ ({-1, 0, 1} : Set Int) := by
  rcases memS_cases h with h | h | h <;> subst h <;> exact memS_of (by norm_num)

/-- Helper: {-1, 0, 1} is closed under multiplication. -/
theorem memS_mul {a b : Int} (ha : a ∈ ({-1, 0, 1} : Set Int))
    (hb : b ∈ ({-1, 0, 1} : Set Int)) : a * b ∈ ({-1, 0, 1} : Set Int) := by
  rcases memS_cases ha with h | h | h <;> subst h <;>
    rcases memS_cases hb with h2 | h2 | h2 <;> subst h2 <;>
      exact memS_of (by norm_num)

/-- Helper: signs preserve membership in {-1, 0, 1}. -/
theorem memS_sign_mul (n : Nat) {a : Int} (h : a ∈ ({-1, 0, 1} : Set Int)) :
    (-1 : Int) ^ n * a ∈ ({-1, 0, 1} : Set Int) := by
  rcases Nat.even_or_odd n with he | ho
  · rw [he.neg_one_pow, one_mul]; exact h
  · rw [ho.neg_one_pow, neg_one_mul]; exact memS_neg h

/-- Helper: initial coefficients on start-variable columns. -/
theorem initVarCoeff_op {p : SchedProblem} {i v : Nat} {d : Dep}
    (hd : p.deps.get? i = some d) (hv : v < p.nOps) :
    initVarCoeff p i v = if v = d.dst then -1 else if v = d.src then 1 else 0 := by
  simp only [initVarCoeff, hd, if_pos hv]

/-- Helper: initial coefficients on slack-variable columns. -/
theorem initVarCoeff_slack {p : SchedProblem} {i v : Nat} {d : Dep}
    (hd : p.deps.get? i = some d) (hv : ¬ v < p.nOps) :
    initVarCoeff p i v = if v = p.nOps + i then 1 else 0 := by
  simp only [initVarCoeff, hd, if_neg hv]

/-- The matrix of initial variable coefficients. -/
def A0mat (p : SchedProblem) :
    Matrix (Fin p.deps.length) (Fin (p.nOps + p.deps.length)) Int :=
  Matrix.of fun i v => initVarCoeff p i v

/-- Helper: the built tableau's variable part is `A0mat`. -/
theorem varMat_buildTableau (isCyclic : Bool) (p : SchedProblem) :
    varMat p (buildTableau isCyclic p) = A0mat p := by
  ext i v
  exact varCoeff_buildTableau isCyclic p i.isLt v

/-- Helper: total unimodularity of the initial system.  Every square
submatrix of `A0mat` (one slack-identity column and at most two incidence
entries per row) has determinant -1, 0 or 1.  This is the structural reason
the tableau entries stay in {-1, 0, 1} across pivots. -/
theorem A0mat_tu (p : SchedProblem) :
    ∀ (k : Nat) (f : Fin k → Fin p.deps.length)
      (g : Fin k → Fin (p.nOps + p.deps.length)),
      ((A0mat p).submatrix f g).det ∈ ({-1, 0, 1} : Set Int) := by
  intro k
  induction k with
  | zero =>
    intro f g
    rw [Matrix.det_fin_zero]
    exact memS_of (by norm_num)
  | succ k ih =>
    intro f g
    by_cases hf : Function.Injective f
    · by_cases hg : Function.Injective g
      · by_cases hslack : ∃ j0, p.nOps ≤ ((g j0 : Fin _) : Nat)
        · obtain ⟨j0, hj0⟩ := hslack
          by_cases hhit : ∃ i0, ((g j0 : Fin _) : Nat) = p.nOps + ((f i0 : Fin _) : Nat)
          · obtain ⟨i0, hi0⟩ := hhit
            rw [Matrix.det_succ_column _ j0, Finset.sum_eq_single i0]
            · have hent : (A0mat p).submatrix f g i0 j0 = 1 := by
                show initVarCoeff p (f i0) (g j0) = 1
                rw [initVarCoeff_slack (List.get?_eq_get (f i0).isLt) (by omega),
                  if_pos hi0]
              rw [hent, mul_one, Matrix.submatrix_submatrix]
              exact memS_sign_mul _ (ih _ _)
            · intro i _ hne
              have hent : (A0mat p).submatrix f g i j0 = 0 := by
                show initVarCoeff p (f i) (g j0) = 0
                rw [initVarCoeff_slack (List.get?_eq_get (f i).isLt) (by omega),
                  if_neg]
                intro he
                exact hne (hf (Fin.ext (by omega)))
              rw [hent, mul_zero, zero_mul]
            · intro hmem
              exact absurd (Finset.mem_univ i0) hmem
          · have hcol : ∀ i, (A0mat p).submatrix f g i j0 = 0 := by
              intro i
              show initVarCoeff p (f i) (g j0) = 0
              rw [initVarCoeff_slack (List.get?_eq_get (f i).isLt) (by omega),
                if_neg]
              intro he
              exact hhit ⟨i, he⟩
            rw [Matrix.det_eq_zero_of_column_eq_zero j0 hcol]
            exact memS_of (by norm_num)
        · push_neg at hslack
          by_cases hrow1 : ∃ (i0 : Fin (k + 1)) (j0 : Fin (k + 1)),
              ∀ j, j ≠ j0 → (A0mat p).submatrix f g i0 j = 0
          · obtain ⟨i0, j0, hrow⟩ := hrow1
            rw [Matrix.det_succ_row _ i0, Finset.sum_eq_single j0]
            · rw [Matrix.submatrix_submatrix, mul_assoc]
              exact memS_sign_mul _ (memS_mul (initVarCoeff_mem p _ _) (ih _ _))
            · intro j _ hne
              rw [hrow j hne, mul_zero, zero_mul]
            · intro hmem
              exact absurd (Finset.mem_univ j0) hmem
          · push_neg at hrow1
            have hzero : ∀ i : Fin (k + 1),
                (∑ j, (A0mat p).submatrix f g i j) = 0 := by
              intro i
              obtain ⟨j1, hj1ne, hj1⟩ := hrow1 i ⟨0, Nat.succ_pos k⟩
              obtain ⟨j2, hj2ne, hj2⟩ := hrow1 i j1
              set d := p.deps.get ⟨(f i : Nat), (f i).isLt⟩ with hdd
              have hget : p.deps.get? (f i) = some d := List.get?_eq_get _
              have hval : ∀ j : Fin (k + 1), (A0mat p).submatrix f g i j =
                  if ((g j : Fin _) : Nat) = d.dst then -1
                  else if ((g j : Fin _) : Nat) = d.src then 1 else 0 := by
                intro j
                exact initVarCoeff_op hget (hslack j)
              have hmem12 : ∀ j : Fin (k + 1), (A0mat p).submatrix f g i j ≠ 0 →
                  ((g j : Fin _) : Nat) = d.dst ∨ ((g j : Fin _) : Nat) = d.src := by
                intro j hne
                rw [hval j] at hne
                by_cases h1 : ((g j : Fin _) : Nat) = d.dst
                · exact Or.inl h1
                · rw [if_neg h1] at hne
                  by_cases h2 : ((g j : Fin _) : Nat) = d.src
                  · exact Or.inr h2
                  · rw [if_neg h2] at hne
                    exact absurd rfl hne
              have hgne : ((g j2 : Fin _) : Nat) ≠ ((g j1 : Fin _) : Nat) := by
                intro he
                exact hj2ne (hg (Fin.ext he))
              have hcollapse :
                  (∀ j : Fin (k + 1), j ≠ j1 → j ≠ j2 →
                    (A0mat p).submatrix f g i j = 0) →
                  (A0mat p).submatrix f g i j1 + (A0mat p).submatrix f g i j2 = 0 →
                  (∑ j, (A0mat p).submatrix f g i j) = 0 := by
                intro hoff hsum2
                rw [← Finset.sum_subset
                  (Finset.subset_univ ({j1, j2} : Finset (Fin (k + 1))))]
                · rw [Finset.sum_pair (fun he => hj2ne he.symm)]
                  exact hsum2
                · intro j _ hjnot
                  simp only [Finset.mem_insert, Finset.mem_singleton] at hjnot
                  push_neg at hjnot
                  exact hoff j hjnot.1 hjnot.2
              have hja : ∀ j : Fin (k + 1), ((g j : Fin _) : Nat) = ((g j1 : Fin _) : Nat) → j = j1 :=
                fun j h => hg (Fin.ext h)
              have hjb : ∀ j : Fin (k + 1), ((g j : Fin _) : Nat) = ((g j2 : Fin _) : Nat) → j = j2 :=
                fun j h => hg (Fin.ext h)
              rcases hmem12 j1 hj1 with h1 | h1 <;> rcases hmem12 j2 hj2 with h2 | h2
              · exact absurd (h2.trans h1.symm) hgne
              · refine hcollapse (fun j hne1 hne2 => ?_) ?_
                · rw [hval j, if_neg (fun h => hne1 (hja j (h.trans h1.symm))),
                    if_neg (fun h => hne2 (hjb j (h.trans h2.symm)))]
                · rw [hval j1, hval j2, if_pos h1,
                    if_neg (fun h => hgne (h.trans h1.symm) : ¬ ((g j2 : Fin _) : Nat) = d.dst),
                    if_pos h2]
                  norm_num
              · refine hcollapse (fun j hne1 hne2 => ?_) ?_
                · rw [hval j, if_neg (fun h => hne2 (hjb j (h.trans h2.symm))),
                    if_neg (fun h => hne1 (hja j (h.trans h1.symm)))]
                · rw [hval j1,
                    if_neg (fun h => hgne (h2.trans h.symm) :
                      ¬ ((g j1 : Fin _) : Nat) = d.dst),
                    if_pos h1, hval j2, if_pos h2]
                  norm_num
              · exact absurd (h2.trans h1.symm) hgne
            have hmv : ((A0mat p).submatrix f g).mulVec (fun _ => (1 : Int)) = 0 := by
              funext i
              simp only [Matrix.mulVec, Matrix.dotProduct, mul_one]
              exact hzero i
            have hdet : ((A0mat p).submatrix f g).det = 0 := by
              rw [← Matrix.exists_mulVec_eq_zero_iff]
              refine ⟨fun _ => (1 : Int), ?_, hmv⟩
              intro h
              have := congrFun h ⟨0, Nat.succ_pos k⟩
              simp at this
            rw [hdet]
            exact memS_of (by norm_num)
      · rw [Function.not_injective_iff] at hg
        obtain ⟨j1, j2, hgeq, hjne⟩ := hg
        have hT : ((A0mat p).submatrix f g).det =
            (((A0mat p).submatrix f g).transpose).det := (Matrix.det_transpose _).symm
        rw [hT, Matrix.det_zero_of_row_eq hjne]
        · exact memS_of (by norm_num)
        · funext i
          show (A0mat p).submatrix f g i j1 = (A0mat p).submatrix f g i j2
          show initVarCoeff p (f i) (g j1) = initVarCoeff p (f i) (g j2)
          rw [hgeq]
    · rw [Function.not_injective_iff] at hf
      obtain ⟨i1, i2, hfeq, hine⟩ := hf
      rw [Matrix.det_zero_of_row_eq hine]
      · exact memS_of (by norm_num)
      · funext j
        show initVarCoeff p (f i1) (g j) = initVarCoeff p (f i2) (g j)
        rw [hfeq]

/-- Helper: in any state satisfying the partition and system invariants, every
tableau entry in the constraint rows' non-basic-variable columns is -1, 0
or 1 (the totally unimodular structure of the initial system survives the row
operations). -/
theorem tab_entry_of_sysInv {isCyclic : Bool} {p : SchedProblem}
    {st : SimplexState} (hp : VarPartition p st) (hs : SysInv isCyclic p st) :
    ∀ i k, i < p.deps.length → k < p.nOps →
      st.tab (1 + i) (2 + k) ∈ ({-1, 0, 1} : Set Int) := by
  intro i k hi hk
  obtain ⟨R, hvM, hc0, hcT⟩ := hs
  rw [varMat_buildTableau] at hvM
  have hsolved := varMat_basisCols hp
  have hfact : R * ((A0mat p).submatrix id (basisCols p st)) = 1 := by
    rw [← submatrix_id_mul, ← hvM, hsolved]
  have hBR : ((A0mat p).submatrix id (basisCols p st)) * R = 1 :=
    (Matrix.mul_eq_one_comm).mp hfact
  have hdetU : IsUnit ((A0mat p).submatrix id (basisCols p st)).det := by
    have h1 : R.det * ((A0mat p).submatrix id (basisCols p st)).det = 1 := by
      rw [← Matrix.det_mul, hfact, Matrix.det_one]
    exact isUnit_of_mul_eq_one _ _ ((mul_comm _ _).trans h1)
  have hvlt : st.nonBasic k < p.nOps + p.deps.length := hp.nb_lt k hk
  have hxR : (fun i' => varMat p st i' ⟨st.nonBasic k, hvlt⟩) =
      R.mulVec (fun i' => A0mat p i' ⟨st.nonBasic k, hvlt⟩) := by
    funext i'
    show varMat p st i' ⟨st.nonBasic k, hvlt⟩ = _
    rw [hvM]
    simp [Matrix.mul_apply, Matrix.mulVec, Matrix.dotProduct]
  have hBx : ((A0mat p).submatrix id (basisCols p st)).mulVec
      (fun i' => varMat p st i' ⟨st.nonBasic k, hvlt⟩) =
      (fun i' => A0mat p i' ⟨st.nonBasic k, hvlt⟩) := by
    rw [hxR, Matrix.mulVec_mulVec, hBR, Matrix.one_mulVec]
  have hinj : ∀ y z : Fin p.deps.length → Int,
      ((A0mat p).submatrix id (basisCols p st)).mulVec y =
        ((A0mat p).submatrix id (basisCols p st)).mulVec z → y = z := by
    intro y z hyz
    have h2 := congrArg (R.mulVec) hyz
    rwa [Matrix.mulVec_mulVec, Matrix.mulVec_mulVec, hfact,
      Matrix.one_mulVec, Matrix.one_mulVec] at h2
  have hdx : Matrix.cramer ((A0mat p).submatrix id (basisCols p st))
      (fun i' => A0mat p i' ⟨st.nonBasic k, hvlt⟩) =
      ((A0mat p).submatrix id (basisCols p st)).det •
        (fun i' => varMat p st i' ⟨st.nonBasic k, hvlt⟩) := by
    apply hinj
    rw [Matrix.mulVec_cramer, Matrix.mulVec_smul, hBx]
  have hpt := congrFun hdx ⟨i, hi⟩
  rw [Matrix.cramer_apply] at hpt
  have hupd : ((A0mat p).submatrix id (basisCols p st)).updateColumn ⟨i, hi⟩
      (fun i' => A0mat p i' ⟨st.nonBasic k, hvlt⟩) =
      (A0mat p).submatrix id
        (Function.update (basisCols p st) ⟨i, hi⟩ ⟨st.nonBasic k, hvlt⟩) := by
    ext a b
    simp only [Matrix.updateColumn_apply, Matrix.submatrix_apply, id]
    by_cases hbi : b = ⟨i, hi⟩
    · rw [if_pos hbi, hbi, Function.update_same]
    · rw [if_neg hbi, Function.update_noteq hbi]
  have hmem : (((A0mat p).submatrix id (basisCols p st)).updateColumn ⟨i, hi⟩
      (fun i' => A0mat p i' ⟨st.nonBasic k, hvlt⟩)).det ∈ ({-1, 0, 1} : Set Int) := by
    rw [hupd]
    exact A0mat_tu p _ id _
  have hxv : varMat p st ⟨i, hi⟩ ⟨st.nonBasic k, hvlt⟩ = st.tab (1 + i) (2 + k) := by
    show varCoeff p st i (st.nonBasic k) = _
    exact varCoeff_nonBasic hp hk hi
  rcases Int.isUnit_iff.mp hdetU with hdet1 | hdet1
  · rw [hdet1] at hpt
    simp only [Pi.smul_apply, smul_eq_mul, one_mul] at hpt
    rw [hxv] at hpt
    rw [← hpt]
    exact hmem
  · rw [hdet1] at hpt
    simp only [Pi.smul_apply, smul_eq_mul, neg_mul, one_mul] at hpt
    rw [hxv] at hpt
    have h3 : st.tab (1 + i) (2 + k) =
        - (((A0mat p).submatrix id (basisCols p st)).updateColumn ⟨i, hi⟩
          (fun i' => A0mat p i' ⟨st.nonBasic k, hvlt⟩)).det := by
      rw [hpt, neg_neg]
    rw [h3]
    exact memS_neg hmem

/-! ### Row equations as a linear system over the variables -/

/-- Generic helper: a sum over `Fin n` supported in a single index. -/
theorem sum_fin_one_support {n : Nat} (f : Fin n → Int) (j1 : Fin n)
    (h0 : ∀ j, j ≠ j1 → f j = 0) :
    ∑ j, f j = f j1 :=
  Finset.sum_eq_single j1 (fun b _ hb => h0 b hb)
    (fun h => absurd (Finset.mem_univ j1) h)

/-- Generic helper: a sum over `Fin n` supported in two distinct indices. -/
theorem sum_fin_two_support {n : Nat} (f : Fin n → Int) (j1 j2 : Fin n)
    (hne : j1 ≠ j2)
    (h0 : ∀ j, j ≠ j1 → j ≠ j2 → f j = 0) :
    ∑ j, f j = f j1 + f j2 := by
  have h1 : ∑ j in ({j1, j2} : Finset (Fin n)), f j = ∑ j, f j := by
    apply Finset.sum_subset (Finset.subset_univ _)
    intro x _ hx
    rw [Finset.mem_insert, Finset.mem_singleton] at hx
    push_neg at hx
    exact h0 x hx.1 hx.2
  rw [← h1, Finset.sum_pair hne]

/-- Generic helper: a sum over `Fin n` supported in three distinct indices. -/
theorem sum_fin_three_support {n : Nat} (f : Fin n → Int) (j1 j2 j3 : Fin n)
    (h12 : j1 ≠ j2) (h13 : j1 ≠ j3) (h23 : j2 ≠ j3)
    (h0 : ∀ j, j ≠ j1 → j ≠ j2 → j ≠ j3 → f j = 0) :
    ∑ j, f j = f j1 + f j2 + f j3 := by
  have h1 : ∑ j in ({j1, j2, j3} : Finset (Fin n)), f j = ∑ j, f j := by
    apply Finset.sum_subset (Finset.subset_univ _)
    intro x _ hx
    rw [Finset.mem_insert, Finset.mem_insert, Finset.mem_singleton] at hx
    push_neg at hx
    exact h0 x hx.1 hx.2.1 hx.2.2
  have hnotmem : j1 ∉ ({j2, j3} : Finset (Fin n)) := by
    rw [Finset.mem_insert, Finset.mem_singleton]
    push_neg
    exact ⟨h12, h13⟩
  rw [← h1, Finset.sum_insert hnotmem, Finset.sum_pair h23, add_assoc]

/-- Generic helper: summing an indicator of a fixed variable id against a
valuation collapses to one term. -/
theorem sum_fin_indicator_mul {n : Nat} (v0 : Nat) (hv0 : v0 < n)
    (e : Int) (w : Nat → Int) :
    ∑ v : Fin n, (if v0 = (v : Nat) then e else 0) * w (v : Nat) = e * w v0 := by
  rw [sum_fin_one_support _ ⟨v0, hv0⟩]
  · rw [if_pos rfl]
  · intro j hj
    rw [if_neg, zero_mul]
    intro hE
    exact hj (Fin.ext hE.symm)

/-- Helper: under the partition, the full variable sum of a constraint row
decomposes into the stored non-basic entries plus the basic variable. -/
theorem rowSum_decomp {p : SchedProblem} {st : SimplexState}
    (hp : VarPartition p st) (i : Fin p.deps.length) (w : Nat → Int) :
    ∑ v : Fin (p.nOps + p.deps.length), varMat p st i v * w (v : Nat) =
      (∑ k in Finset.range p.nOps, st.tab (1 + (i : Nat)) (2 + k) * w (st.nonBasic k)) +
        w (st.basic (i : Nat)) := by
  have hexp : ∀ v : Fin (p.nOps + p.deps.length),
      varMat p st i v * w (v : Nat) =
        (∑ k in Finset.range p.nOps,
          (if st.nonBasic k = (v : Nat) then st.tab (1 + (i : Nat)) (2 + k) else 0) *
            w (v : Nat)) +
          (if st.basic (i : Nat) = (v : Nat) then 1 else 0) * w (v : Nat) := by
    intro v
    show varCoeff p st (i : Nat) (v : Nat) * w (v : Nat) = _
    rw [varCoeff, add_mul, Finset.sum_mul]
  rw [Finset.sum_congr rfl (fun v _ => hexp v), Finset.sum_add_distrib]
  congr 1
  · rw [Finset.sum_comm]
    apply Finset.sum_congr rfl
    intro k hk
    rw [Finset.mem_range] at hk
    exact sum_fin_indicator_mul (st.nonBasic k) (hp.nb_lt k hk) _ w
  · rw [sum_fin_indicator_mul (st.basic (i : Nat)) (hp.b_lt (i : Nat) i.isLt) 1 w,
      one_mul]

/-- The rowResidual of constraint row `1 + i` of `st` at parameter value `t` under
the valuation `w` of the variable ids; a valuation solves the current system
exactly when all rowResiduals vanish. -/
def rowResidual (p : SchedProblem) (st : SimplexState) (t : Int) (w : Nat → Int) :
    Fin p.deps.length → Int :=
  fun i => c0vec p st i + cTvec p st i * t +
    ∑ v : Fin (p.nOps + p.deps.length), varMat p st i v * w (v : Nat)

/-- Helper: the rowResidual vector in matrix-vector form. -/
theorem rowResidual_vec (p : SchedProblem) (st : SimplexState) (t : Int) (w : Nat → Int) :
    rowResidual p st t w =
      c0vec p st + t • cTvec p st +
        (varMat p st).mulVec (fun v => w (v : Nat)) := by
  funext i
  simp only [rowResidual, Pi.add_apply, Pi.smul_apply, smul_eq_mul,
    Matrix.mulVec, Matrix.dotProduct]
  ring

/-- Helper: a matrix-vector product commutes with integer scaling of the
vector. -/
theorem mulVec_smul_int {m n : Type} [Fintype n] (A : Matrix m n Int) (b : Int)
    (v : n → Int) : A.mulVec (b • v) = b • A.mulVec v := by
  funext i
  simp only [Matrix.mulVec, Matrix.dotProduct, Pi.smul_apply, smul_eq_mul,
    Finset.mul_sum]
  exact Finset.sum_congr rfl (fun j _ => by ring)

/-- Helper: the rowResidual vector transforms by the recombination matrix. -/
theorem rowResidual_transform {isCyclic : Bool} {p : SchedProblem} {st : SimplexState}
    {R : Matrix (Fin p.deps.length) (Fin p.deps.length) Int}
    (hvM : varMat p st = R * varMat p (buildTableau isCyclic p))
    (hc0 : c0vec p st = R.mulVec (c0vec p (buildTableau isCyclic p)))
    (hcT : cTvec p st = R.mulVec (cTvec p (buildTableau isCyclic p)))
    (t : Int) (w : Nat → Int) :
    rowResidual p st t w = R.mulVec (rowResidual p (buildTableau isCyclic p) t w) := by
  rw [rowResidual_vec p st t w, rowResidual_vec p (buildTableau isCyclic p) t w,
    hvM, hc0, hcT, Matrix.mulVec_add, Matrix.mulVec_add, mulVec_smul_int,
    ← Matrix.mulVec_mulVec]

/-- Helper: under the partition and system invariants, a valuation solves the
current row equations iff it solves the initial ones (the recombination matrix
is invertible because the current system is in solved form). -/
theorem rowResidual_iff_init {isCyclic : Bool} {p : SchedProblem} {st : SimplexState}
    (hp : VarPartition p st) (hs : SysInv isCyclic p st) (t : Int) (w : Nat → Int) :
    rowResidual p st t w = 0 ↔ rowResidual p (buildTableau isCyclic p) t w = 0 := by
  obtain ⟨R, hvM, hc0, hcT⟩ := hs
  have htr := rowResidual_transform hvM hc0 hcT t w
  constructor
  · intro h
    have hvM' := hvM
    rw [varMat_buildTableau] at hvM'
    have hsolved := varMat_basisCols hp
    have hfact : R * ((A0mat p).submatrix id (basisCols p st)) = 1 := by
      rw [← submatrix_id_mul, ← hvM', hsolved]
    have hBR : ((A0mat p).submatrix id (basisCols p st)) * R = 1 :=
      (Matrix.mul_eq_one_comm).mp hfact
    have h2 := congrArg
      (fun x => ((A0mat p).submatrix id (basisCols p st)).mulVec x)
      (htr.symm.trans h)
    simp only [] at h2
    rw [Matrix.mulVec_mulVec, hBR, Matrix.one_mulVec, Matrix.mulVec_zero] at h2
    exact h2
  · intro h
    rw [htr, h, Matrix.mulVec_zero]

/-- The elementary row-operation matrix realized by `pivot` at pivot row
`1 + (r-1)` with pivot element -1: the pivot row is negated, and every other
row receives the pivot row scaled by that row's pivot-column entry. -/
def pivotE (st : SimplexState) (D : Nat) (r c : Nat) : Matrix (Fin D) (Fin D) Int :=
  Matrix.of fun i j =>
    if (j : Nat) = r - 1 then
      (if (i : Nat) = r - 1 then -1 else st.tab (1 + (i : Nat)) c)
    else if j = i then 1 else 0

/-- Helper: row `i` of `pivotE` dotted with any vector. -/
theorem pivotE_row_dot {D : Nat} (st : SimplexState) (r c : Nat) (hrD : r - 1 < D)
    (g : Fin D → Int) (i : Fin D) :
    ∑ j, pivotE st D r c i j * g j =
      if (i : Nat) = r - 1 then - g ⟨r - 1, hrD⟩
      else g i + st.tab (1 + (i : Nat)) c * g ⟨r - 1, hrD⟩ := by
  by_cases hir : (i : Nat) = r - 1
  · rw [if_pos hir]
    have hi1 : i = ⟨r - 1, hrD⟩ := Fin.ext hir
    have h0 : ∀ j, j ≠ ⟨r - 1, hrD⟩ → pivotE st D r c i j * g j = 0 := by
      intro j hj
      simp only [pivotE, Matrix.of_apply]
      rw [if_neg (fun hE => hj (Fin.ext hE)),
        if_neg (fun hji => hj (hji.trans hi1)), zero_mul]
    rw [sum_fin_one_support _ ⟨r - 1, hrD⟩ h0]
    have h2 : pivotE st D r c i ⟨r - 1, hrD⟩ = -1 := by
      simp only [pivotE, Matrix.of_apply]
      rw [if_true, if_pos hir]
    rw [h2, neg_one_mul]
  · rw [if_neg hir]
    have hne : i ≠ ⟨r - 1, hrD⟩ := fun h => hir (by rw [h])
    have h0 : ∀ j, j ≠ i → j ≠ ⟨r - 1, hrD⟩ → pivotE st D r c i j * g j = 0 := by
      intro j hji hjr
      simp only [pivotE, Matrix.of_apply]
      rw [if_neg (fun hE => hjr (Fin.ext hE)), if_neg hji, zero_mul]
    rw [sum_fin_two_support _ i ⟨r - 1, hrD⟩ hne h0]
    have h1 : pivotE st D r c i i = 1 := by
      simp only [pivotE, Matrix.of_apply]
      rw [if_neg hir, if_true]
    have h2 : pivotE st D r c i ⟨r - 1, hrD⟩ = st.tab (1 + (i : Nat)) c := by
      simp only [pivotE, Matrix.of_apply]
      rw [if_true, if_neg hir]
    rw [h1, h2, one_mul]

/-- Helper: a pivot with pivot element -1 preserves the system-recombination
invariant, composing the current recombination with the elementary matrix. -/
theorem sysInv_pivot {isCyclic : Bool} {p : SchedProblem} {st : SimplexState}
    (hp : VarPartition p st) {r c : Nat}
    (hr1 : 1 ≤ r) (hc2 : 2 ≤ c)
    (hrD : r - 1 < p.deps.length) (hcN : c - 2 < p.nOps)
    (hpel : st.tab r c = -1)
    (hs : SysInv isCyclic p st) : SysInv isCyclic p (pivot st r c) := by
  obtain ⟨R, hvM, hc0, hcT⟩ := hs
  have h1r : 1 + (r - 1) = r := by omega
  refine ⟨pivotE st p.deps.length r c * R, ?_, ?_, ?_⟩
  · have h1 : varMat p (pivot st r c) = pivotE st p.deps.length r c * varMat p st := by
      ext i v
      show varCoeff p (pivot st r c) (i : Nat) (v : Nat) = _
      rw [varCoeff_pivot hp hr1 hc2 hrD hcN hpel i.isLt v.isLt, Matrix.mul_apply,
        pivotE_row_dot st r c hrD (fun j => varMat p st j v) i]
      by_cases hir : (i : Nat) = r - 1
      · rw [if_pos hir, if_pos hir]
        rfl
      · rw [if_neg hir, if_neg hir]
        rfl
    rw [h1, hvM, Matrix.mul_assoc]
  · have h1 : c0vec p (pivot st r c) =
        (pivotE st p.deps.length r c).mulVec (c0vec p st) := by
      funext i
      simp only [Matrix.mulVec, Matrix.dotProduct]
      rw [pivotE_row_dot st r c hrD (c0vec p st) i]
      show (pivot st r c).tab (1 + (i : Nat)) 0 = _
      simp only [pivot, c0vec]
      rw [if_neg (show (0 : Nat) ≠ c by omega), h1r]
      by_cases hir : (i : Nat) = r - 1
      · rw [if_pos hir, if_pos (show 1 + (i : Nat) = r by omega)]
      · rw [if_neg hir, if_neg (show ¬ 1 + (i : Nat) = r by omega)]
    rw [h1, hc0, Matrix.mulVec_mulVec]
  · have h1 : cTvec p (pivot st r c) =
        (pivotE st p.deps.length r c).mulVec (cTvec p st) := by
      funext i
      simp only [Matrix.mulVec, Matrix.dotProduct]
      rw [pivotE_row_dot st r c hrD (cTvec p st) i]
      show (pivot st r c).tab (1 + (i : Nat)) 1 = _
      simp only [pivot, cTvec]
      rw [if_neg (show (1 : Nat) ≠ c by omega), h1r]
      by_cases hir : (i : Nat) = r - 1
      · rw [if_pos hir, if_pos (show 1 + (i : Nat) = r by omega)]
      · rw [if_neg hir, if_neg (show ¬ 1 + (i : Nat) = r by omega)]
    rw [h1, hcT, Matrix.mulVec_mulVec]

/-- Helper: the pivot element selected by the two scans is -1 in any state
satisfying the structural invariants (it is negative by selection and all
entries are in {-1, 0, 1}). -/
theorem pivot_element_neg_one {isCyclic : Bool} {p : SchedProblem} {st : SimplexState}
    {r c : Nat} (hd : TableauDims p st) (hp : VarPartition p st)
    (hs : SysInv isCyclic p st)
    (hr : findPivotRow st = some r) (hc : findPivotColumn st r = some c) :
    st.tab r c = -1 := by
  have hrb := findPivotRow_some_facts hr
  have hcb := findPivotColumn_some_facts hc
  have hrD : r - 1 < p.deps.length := by rcases hd with ⟨h1, _⟩; omega
  have hcN : c - 2 < p.nOps := by rcases hd with ⟨_, h2⟩; omega
  have hmem := tab_entry_of_sysInv hp hs (r - 1) (c - 2) hrD hcN
  have h1r : 1 + (r - 1) = r := by omega
  have h2c : 2 + (c - 2) = c := by omega
  rw [h1r, h2c] at hmem
  have hneg := hcb.2.2.1
  rcases memS_cases hmem with h | h | h
  · exact h
  · exfalso; omega
  · exfalso; omega

/-- Helper: a continue-step preserves the system-recombination invariant. -/
theorem solveStep_cont_sysInv {isCyclic : Bool} {p : SchedProblem}
    {st st' : SimplexState}
    (hd : TableauDims p st) (hp : VarPartition p st) (hs : SysInv isCyclic p st)
    (h : solveStep st = .cont st') : SysInv isCyclic p st' := by
  unfold solveStep at h
  split at h
  · cases h
  next r hr =>
    split at h
    next c hc =>
      simp only [StepRes.cont.injEq] at h
      subst h
      have hrb := findPivotRow_some_facts hr
      have hcb := findPivotColumn_some_facts hc
      have hrD : r - 1 < p.deps.length := by rcases hd with ⟨h1, _⟩; omega
      have hcN : c - 2 < p.nOps := by rcases hd with ⟨_, h2⟩; omega
      exact sysInv_pivot hp hrb.1 hcb.1 hrD hcN
        (pivot_element_neg_one hd hp hs hr hc) hs
    next hc =>
      split at h
      next ht =>
        simp only [StepRes.cont.injEq] at h
        subst h
        exact hs
      · cases h

/-! ### Dual feasibility and the objective row -/

/-- Dual feasibility: the objective row is non-negative on every non-basic
variable column. -/
def DualFeas (p : SchedProblem) (st : SimplexState) : Prop :=
  ∀ k, k < p.nOps → 0 ≤ st.tab 0 (2 + k)

/-- Helper: the built tableau is dual feasible (a single 1 in the last
operation's column, 0 elsewhere). -/
theorem buildTableau_dualFeas (isCyclic : Bool) (p : SchedProblem) :
    DualFeas p (buildTableau isCyclic p) := by
  intro k hk
  simp only [buildTableau]
  rw [if_true]
  by_cases h : 2 + k = 2 + p.lastOp
  · rw [if_pos h]
    norm_num
  · rw [if_neg h]

/-- Helper: the max-quotient column choice keeps the objective row
non-negative through a pivot. -/
theorem solveStep_cont_dualFeas {isCyclic : Bool} {p : SchedProblem}
    {st st' : SimplexState}
    (hd : TableauDims p st) (hp : VarPartition p st) (hs : SysInv isCyclic p st)
    (hdf : DualFeas p st) (h : solveStep st = .cont st') : DualFeas p st' := by
  unfold solveStep at h
  split at h
  · cases h
  next r hr =>
    split at h
    next c hc =>
      simp only [StepRes.cont.injEq] at h
      subst h
      have hrb := findPivotRow_some_facts hr
      have hcb := findPivotColumn_some_facts hc
      have hrD : r - 1 < p.deps.length := by rcases hd with ⟨h1, _⟩; omega
      have hcN : c - 2 < p.nOps := by rcases hd with ⟨_, h2⟩; omega
      have h1r : 1 + (r - 1) = r := by omega
      have h2c : 2 + (c - 2) = c := by omega
      have hr0 : (0 : Nat) ≠ r := by omega
      have hc0 : 0 ≤ st.tab 0 c := by
        rw [← h2c]
        exact hdf _ hcN
      intro k hk
      simp only [pivot]
      by_cases hkc : 2 + k = c
      · rw [if_pos hkc, if_neg hr0, ← hkc]
        exact hdf k hk
      · rw [if_neg hkc, if_neg hr0]
        have hE := tab_entry_of_sysInv hp hs (r - 1) k hrD hk
        rw [h1r] at hE
        have hok := hdf k hk
        rcases memS_cases hE with hcase | hcase | hcase
        · have hcand : - st.tab 0 (2 + k) ≤ - st.tab 0 c := by
            apply hcb.2.2.2 (2 + k) (by omega)
            · rcases hd with ⟨_, h2⟩; omega
            · omega
          rw [hcase]
          omega
        · rw [hcase, mul_zero, add_zero]
          exact hok
        · rw [hcase, mul_one]
          omega
    next hc =>
      split at h
      next ht =>
        simp only [StepRes.cont.injEq] at h
        subst h
        exact hdf
      · cases h

/-- The objective row of `st` read as an affine form in the parameter and the
current non-basic variables, at parameter value `t` and valuation `w`. -/
def objForm (p : SchedProblem) (st : SimplexState) (t : Int) (w : Nat → Int) : Int :=
  st.tab 0 0 + st.tab 0 1 * t +
    ∑ k in Finset.range p.nOps, st.tab 0 (2 + k) * w (st.nonBasic k)

/-- Objective-row invariant: on every valuation solving the initial row
equations, the objective row evaluates to the last operation's variable. -/
def ObjInv (isCyclic : Bool) (p : SchedProblem) (st : SimplexState) : Prop :=
  ∀ (t : Int) (w : Nat → Int),
    rowResidual p (buildTableau isCyclic p) t w = 0 →
    objForm p st t w = w p.lastOp

/-- Helper: the built tableau's objective row reads off the last operation's
variable. -/
theorem buildTableau_objInv (isCyclic : Bool) (p : SchedProblem)
    (hlast : p.lastOp < p.nOps) : ObjInv isCyclic p (buildTableau isCyclic p) := by
  intro t w _
  rw [objForm]
  have h00 : (buildTableau isCyclic p).tab 0 0 = 0 := by
    simp only [buildTableau]
    rw [if_true, if_neg (show (0 : Nat) ≠ 2 + p.lastOp by omega)]
  have h01 : (buildTableau isCyclic p).tab 0 1 = 0 := by
    simp only [buildTableau]
    rw [if_true, if_neg (show (1 : Nat) ≠ 2 + p.lastOp by omega)]
  have hsum : ∑ k in Finset.range p.nOps,
      (buildTableau isCyclic p).tab 0 (2 + k) *
        w ((buildTableau isCyclic p).nonBasic k) =
      ∑ k in Finset.range p.nOps, (if 2 + k = 2 + p.lastOp then w k else 0) := by
    apply Finset.sum_congr rfl
    intro k _
    simp only [buildTableau]
    rw [if_true]
    by_cases h : 2 + k = 2 + p.lastOp
    · rw [if_pos h, if_pos h, one_mul]
    · rw [if_neg h, if_neg h, zero_mul]
  rw [h00, h01, hsum, zero_mul, add_zero, zero_add,
    sum_range_ite_unique hlast rfl (fun k _ h => by omega)]

/-- Helper: a continue-step preserves the objective-row invariant: a pivot
adds a multiple of the pivot row (a valid equation) to the objective row and
re-labels the exchanged column. -/
theorem solveStep_cont_objInv {isCyclic : Bool} {p : SchedProblem}
    {st st' : SimplexState}
    (hd : TableauDims p st) (hp : VarPartition p st) (hs : SysInv isCyclic p st)
    (ho : ObjInv isCyclic p st) (h : solveStep st = .cont st') :
    ObjInv isCyclic p st' := by
  unfold solveStep at h
  split at h
  · cases h
  next r hr =>
    split at h
    next c hc =>
      simp only [StepRes.cont.injEq] at h
      subst h
      have hrb := findPivotRow_some_facts hr
      have hcb := findPivotColumn_some_facts hc
      have hrD : r - 1 < p.deps.length := by rcases hd with ⟨h1, _⟩; omega
      have hcN : c - 2 < p.nOps := by rcases hd with ⟨_, h2⟩; omega
      have h1r : 1 + (r - 1) = r := by omega
      have h2c : 2 + (c - 2) = c := by omega
      have hr0 : (0 : Nat) ≠ r := by omega
      have hpel := pivot_element_neg_one hd hp hs hr hc
      intro t w hw
      have hobj := ho t w hw
      rw [objForm] at hobj
      have hsat : rowResidual p st t w = 0 := (rowResidual_iff_init hp hs t w).mpr hw
      have hrow := congrFun hsat ⟨r - 1, hrD⟩
      simp only [rowResidual, Pi.zero_apply] at hrow
      rw [rowSum_decomp hp ⟨r - 1, hrD⟩ w] at hrow
      simp only [c0vec, cTvec] at hrow
      rw [h1r] at hrow
      have hmemc : c - 2 ∈ Finset.range p.nOps := Finset.mem_range.mpr hcN
      rw [← Finset.sum_erase_add _ _ hmemc] at hobj hrow
      have hac : st.tab 0 (2 + (c - 2)) = st.tab 0 c := by rw [h2c]
      have hbc : st.tab r (2 + (c - 2)) = -1 := by rw [h2c]; exact hpel
      rw [hac] at hobj
      rw [hbc] at hrow
      rw [objForm, ← Finset.sum_erase_add _ _ hmemc]
      have hP00 : (pivot st r c).tab 0 0 = st.tab 0 0 + st.tab 0 c * st.tab r 0 := by
        simp only [pivot]
        rw [if_neg (show (0 : Nat) ≠ c by omega), if_neg hr0]
      have hP01 : (pivot st r c).tab 0 1 = st.tab 0 1 + st.tab 0 c * st.tab r 1 := by
        simp only [pivot]
        rw [if_neg (show (1 : Nat) ≠ c by omega), if_neg hr0]
      have hPc : (pivot st r c).tab 0 (2 + (c - 2)) = st.tab 0 c := by
        rw [h2c]
        simp only [pivot]
        rw [if_true, if_neg hr0]
      have hPnb : (pivot st r c).nonBasic (c - 2) = st.basic (r - 1) := by
        simp [pivot]
      have hsum_erase : ∑ k in (Finset.range p.nOps).erase (c - 2),
          (pivot st r c).tab 0 (2 + k) * w ((pivot st r c).nonBasic k) =
          (∑ k in (Finset.range p.nOps).erase (c - 2),
            st.tab 0 (2 + k) * w (st.nonBasic k)) +
          st.tab 0 c * ∑ k in (Finset.range p.nOps).erase (c - 2),
            st.tab r (2 + k) * w (st.nonBasic k) := by
        rw [Finset.mul_sum, ← Finset.sum_add_distrib]
        apply Finset.sum_congr rfl
        intro k hk
        rw [Finset.mem_erase] at hk
        have hkc : ¬ (2 + k = c) := by omega
        have hnb : (pivot st r c).nonBasic k = st.nonBasic k := by
          simp [pivot, hk.1]
        have htab : (pivot st r c).tab 0 (2 + k) =
            st.tab 0 (2 + k) + st.tab 0 c * st.tab r (2 + k) := by
          simp only [pivot]
          rw [if_neg hkc, if_neg hr0]
        rw [hnb, htab]
        ring
      rw [hsum_erase, hP00, hP01, hPc, hPnb]
      have hmul : st.tab 0 c * (st.tab r 0 + st.tab r 1 * t +
          ((∑ k in (Finset.range p.nOps).erase (c - 2),
            st.tab r (2 + k) * w (st.nonBasic k)) +
            -1 * w (st.nonBasic (c - 2)) + w (st.basic (r - 1)))) = 0 := by
        rw [show st.tab r 0 + st.tab r 1 * t +
          ((∑ k in (Finset.range p.nOps).erase (c - 2),
            st.tab r (2 + k) * w (st.nonBasic k)) +
            -1 * w (st.nonBasic (c - 2)) + w (st.basic (r - 1))) = 0 from by
            linarith [hrow], mul_zero]
      linarith [hobj, hmul]
    next hc =>
      split at h
      next ht =>
        simp only [StepRes.cont.injEq] at h
        subst h
        exact ho
      · cases h

/-- Helper: structural invariants (dimensions, partition, recombination, dual
feasibility) hold at every state the solve loop reaches. -/
theorem iterStep_struct_invariant {isCyclic : Bool} {p : SchedProblem}
    {k : Nat} {st : SimplexState}
    (h : iterStep k (buildTableau isCyclic p) = some st) :
    TableauDims p st ∧ VarPartition p st ∧ SysInv isCyclic p st ∧ DualFeas p st := by
  refine iterStep_invariant (P := fun s =>
    TableauDims p s ∧ VarPartition p s ∧ SysInv isCyclic p s ∧ DualFeas p s)
    ?_ k _ st ?_ h
  · rintro s s' ⟨h1, h2, h3, h4⟩ hstep
    exact ⟨solveStep_cont_dims h1 hstep, solveStep_cont_partition h1 h2 hstep,
      solveStep_cont_sysInv h1 h2 h3 hstep, solveStep_cont_dualFeas h1 h2 h3 h4 hstep⟩
  · exact ⟨(buildTableau_partition isCyclic p).1, (buildTableau_partition isCyclic p).2,
      sysInv_buildTableau isCyclic p, buildTableau_dualFeas isCyclic p⟩

/-- Helper: with a valid last operation the objective-row invariant also holds
at every state the solve loop reaches. -/
theorem iterStep_objInv {isCyclic : Bool} {p : SchedProblem}
    (hlast : p.lastOp < p.nOps) {k : Nat} {st : SimplexState}
    (h : iterStep k (buildTableau isCyclic p) = some st) :
    ObjInv isCyclic p st := by
  have hall := iterStep_invariant (P := fun s =>
    (TableauDims p s ∧ VarPartition p s ∧ SysInv isCyclic p s) ∧ ObjInv isCyclic p s)
    ?_ k _ st ?_ h
  · exact hall.2
  · rintro s s' ⟨⟨h1, h2, h3⟩, h5⟩ hstep
    exact ⟨⟨solveStep_cont_dims h1 hstep, solveStep_cont_partition h1 h2 hstep,
      solveStep_cont_sysInv h1 h2 h3 hstep⟩,
      solveStep_cont_objInv h1 h2 h3 h5 hstep⟩
  · exact ⟨⟨(buildTableau_partition isCyclic p).1,
      (buildTableau_partition isCyclic p).2, sysInv_buildTableau isCyclic p⟩,
      buildTableau_objInv isCyclic p hlast⟩

/-- Helper: when the row scan finds no violated row, every constraint row's
value is non-negative. -/
theorem rowValues_nonneg_of_no_pivotRow {st : SimplexState}
    (h : findPivotRow st = none) :
    ∀ r, 1 ≤ r → r < st.nRows → 0 ≤ rowValue st r := by
  rw [findPivotRow, findPivotRowGo_eq_none] at h
  intro r h1 h2
  exact h r h1 (by omega)

/-- The valuation read off a final tableau: each basic variable carries the
negated row value of its row, non-basic variables are 0. -/
def finalW (p : SchedProblem) (st : SimplexState) : Nat → Int :=
  fun v => - ∑ i in Finset.range p.deps.length,
    (if st.basic i = v then rowValue st (1 + i) else 0)

/-- Helper: `finalW` vanishes on non-basic variables. -/
theorem finalW_nb {p : SchedProblem} {st : SimplexState}
    (hp : VarPartition p st) {k : Nat} (hk : k < p.nOps) :
    finalW p st (st.nonBasic k) = 0 := by
  simp only [finalW]
  rw [sum_range_ite_zero (fun i hi h => hp.disj k i hk hi h.symm), neg_zero]

/-- Helper: `finalW` on a basic variable is the negated row value. -/
theorem finalW_basic {p : SchedProblem} {st : SimplexState}
    (hp : VarPartition p st) {i : Nat} (hi : i < p.deps.length) :
    finalW p st (st.basic i) = - rowValue st (1 + i) := by
  simp only [finalW]
  rw [sum_range_ite_unique hi rfl (fun j hj h => hp.b_inj j i hj hi h)]

/-- Helper: after loop termination `finalW` is non-positive everywhere. -/
theorem finalW_nonpos {p : SchedProblem} {st : SimplexState}
    (hd : TableauDims p st)
    (hterm : ∀ r, 1 ≤ r → r < st.nRows → 0 ≤ rowValue st r) :
    ∀ v, finalW p st v ≤ 0 := by
  intro v
  simp only [finalW, neg_nonpos]
  apply Finset.sum_nonneg
  intro i hi
  rw [Finset.mem_range] at hi
  by_cases hb : st.basic i = v
  · rw [if_pos hb]
    apply hterm
    · omega
    · rcases hd with ⟨h1, _⟩; omega
  · rw [if_neg hb]

/-- Helper: `finalW` solves the current row equations at the final parameter
value. -/
theorem finalW_sysSat {p : SchedProblem} {st : SimplexState}
    (hp : VarPartition p st) :
    rowResidual p st st.parameterT (finalW p st) = 0 := by
  funext i
  simp only [rowResidual, Pi.zero_apply]
  rw [rowSum_decomp hp i (finalW p st)]
  have hz : ∑ k in Finset.range p.nOps,
      st.tab (1 + (i : Nat)) (2 + k) * finalW p st (st.nonBasic k) = 0 := by
    apply Finset.sum_eq_zero
    intro k hk
    rw [Finset.mem_range] at hk
    rw [finalW_nb hp hk, mul_zero]
  rw [hz, finalW_basic hp i.isLt]
  simp only [c0vec, cTvec, rowValue]
  ring

/-- The LP valuation induced by a schedule: start-time variables carry negated
start times, slack variables absorb the (non-positive) constraint residuals. -/
def schedVal (p : SchedProblem) (s : Nat → Int) : Nat → Int :=
  fun v =>
    if v < p.nOps then -(s v)
    else match p.deps.get? (v - p.nOps) with
      | some d => (p.lat d.src : Int) + s d.src - s d.dst
      | none => 0

/-- Helper: the schedule valuation is non-positive for a feasible non-negative
schedule. -/
theorem schedVal_nonpos {p : SchedProblem} {s : Nat → Int}
    (h0 : ∀ v, 0 ≤ s v)
    (hfeas : ∀ d ∈ p.deps, (p.lat d.src : Int) ≤ s d.dst - s d.src) :
    ∀ v, schedVal p s v ≤ 0 := by
  intro v
  rw [schedVal]
  by_cases hv : v < p.nOps
  · rw [if_pos hv]
    have := h0 v
    omega
  · rw [if_neg hv]
    cases hd : p.deps.get? (v - p.nOps) with
    | none => simp
    | some d =>
      simp only []
      have hmem : d ∈ p.deps := by
        rcases List.get?_eq_some.mp hd with ⟨hlt, hget⟩
        exact hget ▸ List.get_mem p.deps _ hlt
      have := hfeas d hmem
      omega

/-- Helper: under dual feasibility the objective form is bounded by its
constant-and-parameter part on non-positive valuations. -/
theorem objForm_le {p : SchedProblem} {st : SimplexState}
    (hdf : DualFeas p st) (t : Int) {w : Nat → Int}
    (hw : ∀ v, w v ≤ 0) :
    objForm p st t w ≤ st.tab 0 0 + st.tab 0 1 * t := by
  rw [objForm]
  have hs : ∑ k in Finset.range p.nOps, st.tab 0 (2 + k) * w (st.nonBasic k) ≤ 0 := by
    apply Finset.sum_nonpos
    intro k hk
    rw [Finset.mem_range] at hk
    have h1 := hdf k hk
    have h2 := hw (st.nonBasic k)
    nlinarith
  linarith

/-- Helper: the initial acyclic residual of the row for dependence `d`
(valid: distinct endpoints below `nOps`) in closed form. -/
theorem rowResidual_buildTableau_acyclic {p : SchedProblem}
    (hv : ∀ d ∈ p.deps, d.src < p.nOps ∧ d.dst < p.nOps ∧ d.src ≠ d.dst)
    (t : Int) (w : Nat → Int) (i : Fin p.deps.length) {d : Dep}
    (hd : p.deps.get? (i : Nat) = some d) :
    rowResidual p (buildTableau false p) t w i =
      -(p.lat d.src : Int) + (w d.src - w d.dst) + w (p.nOps + (i : Nat)) := by
  have hmem : d ∈ p.deps := by
    rcases List.get?_eq_some.mp hd with ⟨hlt, hget⟩
    exact hget ▸ List.get_mem p.deps _ hlt
  rcases hv d hmem with ⟨hsrc, hdst, hne⟩
  have hc0 : c0vec p (buildTableau false p) i = -(p.lat d.src : Int) := by
    simp only [c0vec, buildTableau]
    rw [if_neg (show ¬ (1 + (i : Nat) = 0) by omega)]
    rw [Nat.add_sub_cancel_left, hd]
    simp only [constraintRowEntry]
    rw [if_neg (show ¬ (0 = 2 + d.dst) by omega),
      if_neg (show ¬ (0 = 2 + d.src) by omega), if_true]
  have hcT : cTvec p (buildTableau false p) i = 0 := by
    simp only [cTvec, buildTableau]
    rw [if_neg (show ¬ (1 + (i : Nat) = 0) by omega)]
    rw [Nat.add_sub_cancel_left, hd]
    simp only [constraintRowEntry]
    rw [if_neg (show ¬ (1 = 2 + d.dst) by omega),
      if_neg (show ¬ (1 = 2 + d.src) by omega),
      if_neg (show ¬ (1 = 0) by omega), if_true]
    rfl
  have hA : ∀ v : Fin (p.nOps + p.deps.length),
      varMat p (buildTableau false p) i v = initVarCoeff p (i : Nat) (v : Nat) := by
    intro v
    rw [varMat_buildTableau]
    rfl
  have hdstF : d.dst < p.nOps + p.deps.length := by omega
  have hsrcF : d.src < p.nOps + p.deps.length := by omega
  have hslkF : p.nOps + (i : Nat) < p.nOps + p.deps.length := by
    have := i.isLt
    omega
  have hsum : ∑ v : Fin (p.nOps + p.deps.length),
      varMat p (buildTableau false p) i v * w (v : Nat) =
      -1 * w d.dst + 1 * w d.src + 1 * w (p.nOps + (i : Nat)) := by
    rw [Finset.sum_congr rfl (fun v _ => by rw [hA v])]
    rw [sum_fin_three_support _ ⟨d.dst, hdstF⟩ ⟨d.src, hsrcF⟩
      ⟨p.nOps + (i : Nat), hslkF⟩
      (fun h => hne (congrArg Fin.val h).symm)
      (fun h => by have := congrArg Fin.val h; simp only [] at this; omega)
      (fun h => by have := congrArg Fin.val h; simp only [] at this; omega)
      ?_]
    · rw [initVarCoeff_op hd hdst, if_pos rfl,
        initVarCoeff_op hd hsrc, if_neg (fun h => hne h), if_pos rfl,
        initVarCoeff_slack hd (show ¬ (p.nOps + (i : Nat) < p.nOps) by omega),
        if_pos rfl]
    · intro j hj1 hj2 hj3
      by_cases hjN : (j : Nat) < p.nOps
      · rw [initVarCoeff_op hd hjN,
          if_neg (fun h => hj1 (Fin.ext h)), if_neg (fun h => hj2 (Fin.ext h)),
          zero_mul]
      · rw [initVarCoeff_slack hd hjN, if_neg (fun h => hj3 (Fin.ext h)), zero_mul]
  simp only [rowResidual]
  rw [hc0, hcT, hsum]
  ring

/-- Helper: the valuation induced by a feasible schedule solves the initial
acyclic row equations at any parameter value. -/
theorem schedVal_sysSat {p : SchedProblem}
    (hv : ∀ d ∈ p.deps, d.src < p.nOps ∧ d.dst < p.nOps ∧ d.src ≠ d.dst)
    (s : Nat → Int) (t : Int) :
    rowResidual p (buildTableau false p) t (schedVal p s) = 0 := by
  funext i
  have hd : p.deps.get? (i : Nat) = some (p.deps.get ⟨(i : Nat), i.isLt⟩) :=
    List.get?_eq_get i.isLt
  rcases hv _ (List.get_mem p.deps _ i.isLt) with ⟨hsrc, hdst, _⟩
  rw [Pi.zero_apply, rowResidual_buildTableau_acyclic hv t (schedVal p s) i hd]
  have hws : schedVal p s (p.deps.get ⟨(i : Nat), i.isLt⟩).src =
      -(s (p.deps.get ⟨(i : Nat), i.isLt⟩).src) := by
    rw [schedVal, if_pos hsrc]
  have hwd : schedVal p s (p.deps.get ⟨(i : Nat), i.isLt⟩).dst =
      -(s (p.deps.get ⟨(i : Nat), i.isLt⟩).dst) := by
    rw [schedVal, if_pos hdst]
  have hwk : schedVal p s (p.nOps + (i : Nat)) =
      (p.lat (p.deps.get ⟨(i : Nat), i.isLt⟩).src : Int) +
        s (p.deps.get ⟨(i : Nat), i.isLt⟩).src -
        s (p.deps.get ⟨(i : Nat), i.isLt⟩).dst := by
    rw [schedVal, if_neg (show ¬ (p.nOps + (i : Nat) < p.nOps) by omega),
      Nat.add_sub_cancel_left, hd]
  rw [hws, hwd, hwk]
  ring

/-- Helper: any start-time write in the stored log comes from a basic row
(with its row value) or a non-basic column (with value 0). -/
theorem mem_storeStartTimes {p : SchedProblem} {st : SimplexState}
    (hd : TableauDims p st) {v : Nat} {tv : Int}
    (hmem : WriteEvent.setStart v tv ∈ storeStartTimes p st) :
    (∃ i, i < p.deps.length ∧ st.basic i = v ∧ v < p.nOps ∧
      tv = rowValue st (1 + i)) ∨
    (∃ k, k < p.nOps ∧ st.nonBasic k = v ∧ v < p.nOps ∧ tv = 0) := by
  rw [storeStartTimes, List.mem_append] at hmem
  rcases hd with ⟨hd1, hd2⟩
  rcases hmem with hmem | hmem
  · rw [List.mem_filterMap] at hmem
    rcases hmem with ⟨i, hi, hfi⟩
    rw [List.mem_range] at hi
    left
    split at hfi
    next hb =>
      simp only [Option.some.injEq, WriteEvent.setStart.injEq] at hfi
      exact ⟨i, by omega, hfi.1, hfi.1 ▸ hb, hfi.2.symm⟩
    next => cases hfi
  · rw [List.mem_filterMap] at hmem
    rcases hmem with ⟨k, hk, hfk⟩
    rw [List.mem_range] at hk
    right
    split at hfk
    next hb =>
      simp only [Option.some.injEq, WriteEvent.setStart.injEq] at hfk
      exact ⟨k, by omega, hfk.1, hfk.1 ▸ hb, hfk.2.symm⟩
    next => cases hfk

/-- Helper: every stored start time is the negated `finalW` value of its
operation's variable. -/
theorem storeStartTimes_val {p : SchedProblem} {st : SimplexState}
    (hd : TableauDims p st) (hp : VarPartition p st) {v : Nat} {tv : Int}
    (hmem : WriteEvent.setStart v tv ∈ storeStartTimes p st) :
    v < p.nOps ∧ tv = - finalW p st v := by
  rcases mem_storeStartTimes hd hmem with
    ⟨i, hi, hbv, hvN, htv⟩ | ⟨k, hk, hkv, hvN, htv⟩
  · refine ⟨hvN, ?_⟩
    rw [htv, ← hbv, finalW_basic hp hi, neg_neg]
  · refine ⟨hvN, ?_⟩
    rw [htv, ← hkv, finalW_nb hp hk, neg_zero]

/-- Helper: full correctness of a successful acyclic solve on a valid problem:
all written start times are non-negative, they satisfy every dependence
constraint, and the last operation's start time is minimal among all feasible
non-negative integer schedules (i.e. it is the critical-path length). -/
theorem scheduleSimplexAcyclic_correct {fuel : Nat} {p : SchedProblem}
    {writes : List WriteEvent}
    (hv : ∀ d ∈ p.deps, d.src < p.nOps ∧ d.dst < p.nOps ∧ d.src ≠ d.dst)
    (hlast : p.lastOp < p.nOps)
    (h : scheduleSimplexAcyclic fuel p = some writes) :
    (∀ v tv, WriteEvent.setStart v tv ∈ writes → 0 ≤ tv) ∧
    (∀ d ∈ p.deps, ∀ ts td, WriteEvent.setStart d.src ts ∈ writes →
      WriteEvent.setStart d.dst td ∈ writes → (p.lat d.src : Int) ≤ td - ts) ∧
    (∀ tL, WriteEvent.setStart p.lastOp tL ∈ writes →
      ∀ s : Nat → Int, (∀ v, 0 ≤ s v) →
        (∀ d ∈ p.deps, (p.lat d.src : Int) ≤ s d.dst - s d.src) →
        tL ≤ s p.lastOp) := by
  rw [scheduleSimplexAcyclic] at h
  split at h
  next st hopt =>
    simp only [Option.some.injEq] at h
    subst h
    rcases solveTableau_optimal_reaches fuel _ st hopt with ⟨k, _, hreach, hnorow⟩
    obtain ⟨hdims, hpart, hsys, hdf⟩ := iterStep_struct_invariant hreach
    have hobji := iterStep_objInv hlast hreach
    have hterm := rowValues_nonneg_of_no_pivotRow hnorow
    have hWnonpos := finalW_nonpos hdims hterm
    have hWsat : rowResidual p st st.parameterT (finalW p st) = 0 :=
      finalW_sysSat hpart
    have hWinit : rowResidual p (buildTableau false p) st.parameterT (finalW p st) = 0 :=
      (rowResidual_iff_init hpart hsys st.parameterT (finalW p st)).mp hWsat
    refine ⟨?_, ?_, ?_⟩
    · intro v tv hm
      rcases storeStartTimes_val hdims hpart hm with ⟨_, htv⟩
      have := hWnonpos v
      omega
    · intro d hd ts td hms hmd
      rcases storeStartTimes_val hdims hpart hms with ⟨_, hts⟩
      rcases storeStartTimes_val hdims hpart hmd with ⟨_, htd⟩
      rcases List.mem_iff_get?.mp hd with ⟨i, hgi⟩
      have hiD : i < p.deps.length := (List.get?_eq_some.mp hgi).1
      have hres := congrFun hWinit ⟨i, hiD⟩
      rw [Pi.zero_apply,
        rowResidual_buildTableau_acyclic hv st.parameterT (finalW p st) ⟨i, hiD⟩
          hgi] at hres
      rw [show ((⟨i, hiD⟩ : Fin p.deps.length) : Nat) = i from rfl] at hres
      have hslack := hWnonpos (p.nOps + i)
      omega
    · intro tL hmL s hs0 hsfeas
      rcases storeStartTimes_val hdims hpart hmL with ⟨_, htL⟩
      have hWlast := hobji st.parameterT (finalW p st) hWinit
      have hzero : ∑ k in Finset.range p.nOps,
          st.tab 0 (2 + k) * finalW p st (st.nonBasic k) = 0 := by
        apply Finset.sum_eq_zero
        intro k hk
        rw [Finset.mem_range] at hk
        rw [finalW_nb hpart hk, mul_zero]
      rw [objForm, hzero, add_zero] at hWlast
      have hsinit := schedVal_sysSat hv s st.parameterT
      have hslast := hobji st.parameterT (schedVal p s) hsinit
      have hbound := objForm_le hdf st.parameterT (schedVal_nonpos hs0 hsfeas)
      have hsv : schedVal p s p.lastOp = -(s p.lastOp) := by
        rw [schedVal, if_pos hlast]
      rw [hsv] at hslast
      linarith [hWlast, hslast, hbound, htL]
  next hne => cases h

/-- C3: whenever the acyclic scheduler succeeds on a valid problem (distinct
in-range endpoints, in-range last operation), every pair of written start
times satisfies start(dst) - start(src) >= latency(src) for every dependence,
all start times are non-negative, and the last operation's start time is
minimal among all feasible non-negative schedules — i.e. it equals the
critical-path length; on the spec's chain example {A,B,C} with A→B (latency 2),
B→C (latency 3) and last = C, the computed start times are A=0, B=2, C=5. -/
theorem c3_acyclic_scheduling_correct :
    (∀ (fuel : Nat) (p : SchedProblem) (writes : List WriteEvent),
      (∀ d ∈ p.deps, d.src < p.nOps ∧ d.dst < p.nOps ∧ d.src ≠ d.dst) →
      p.lastOp < p.nOps →
      scheduleSimplexAcyclic fuel p = some writes →
      (∀ v tv, WriteEvent.setStart v tv ∈ writes → 0 ≤ tv) ∧
      (∀ d ∈ p.deps, ∀ ts td, WriteEvent.setStart d.src ts ∈ writes →
        WriteEvent.setStart d.dst td ∈ writes → (p.lat d.src : Int) ≤ td - ts) ∧
      (∀ tL, WriteEvent.setStart p.lastOp tL ∈ writes →
        ∀ s : Nat → Int, (∀ v, 0 ≤ s v) →
          (∀ d ∈ p.deps, (p.lat d.src : Int) ≤ s d.dst - s d.src) →
          tL ≤ s p.lastOp)) ∧
    scheduleSimplexAcyclic 16 chainProblem =
      some [WriteEvent.setStart 1 2, WriteEvent.setStart 2 5,
        WriteEvent.setStart 0 0] :=
  ⟨fun _ _ _ hv hlast h => scheduleSimplexAcyclic_correct hv hlast h, by decide⟩

/-- Witness for C3 at the chain example: the validity hypotheses hold and the
returned start times are all non-negative. -/
theorem c3_acyclic_scheduling_correct_witness :
    (∀ d ∈ chainProblem.deps,
      d.src < chainProblem.nOps ∧ d.dst < chainProblem.nOps ∧ d.src ≠ d.dst) ∧
    chainProblem.lastOp < chainProblem.nOps ∧
    scheduleSimplexAcyclic 16 chainProblem =
      some [WriteEvent.setStart 1 2, WriteEvent.setStart 2 5,
        WriteEvent.setStart 0 0] ∧
    (∀ v tv, WriteEvent.setStart v tv ∈
      [WriteEvent.setStart 1 2, WriteEvent.setStart 2 5,
        WriteEvent.setStart 0 0] → 0 ≤ tv) :=
  ⟨by decide, by decide, by decide,
    (c3_acyclic_scheduling_correct.1 16 chainProblem
      [WriteEvent.setStart 1 2, WriteEvent.setStart 2 5, WriteEvent.setStart 0 0]
      (by decide) (by decide) (by decide)).1⟩

/-- C5: every pivot performed by the solve loop (on any state the loop reaches
from a built tableau, with the row and column chosen by the two scans)
preserves both invariants: all entries of the constraint rows in the
non-basic-variable columns stay in {-1, 0, 1}, and the basic/non-basic lists
remain a partition of the nOps + |deps| variable ids with exactly one member
exchanged between the two lists — position c-2 of the non-basic list and
position r-1 of the basic list swap their contents, all other positions are
untouched. -/
theorem c5_pivot_preserves_invariants :
    ∀ (isCyclic : Bool) (p : SchedProblem) (n : Nat) (st : SimplexState) (r c : Nat),
      iterStep n (buildTableau isCyclic p) = some st →
      findPivotRow st = some r → findPivotColumn st r = some c →
      (∀ i k, i < p.deps.length → k < p.nOps →
        (pivot st r c).tab (1 + i) (2 + k) ∈ ({-1, 0, 1} : Set Int)) ∧
      VarPartition p (pivot st r c) ∧
      (pivot st r c).nonBasic (c - 2) = st.basic (r - 1) ∧
      (pivot st r c).basic (r - 1) = st.nonBasic (c - 2) ∧
      (∀ k, k ≠ c - 2 → (pivot st r c).nonBasic k = st.nonBasic k) ∧
      (∀ i, i ≠ r - 1 → (pivot st r c).basic i = st.basic i) := by
  intro isCyclic p n st r c hreach hr hc
  obtain ⟨hdims, hpart, hsys, _⟩ := iterStep_struct_invariant hreach
  have hrb := findPivotRow_some_facts hr
  have hcb := findPivotColumn_some_facts hc
  have hrD : r - 1 < p.deps.length := by rcases hdims with ⟨h1, _⟩; omega
  have hcN : c - 2 < p.nOps := by rcases hdims with ⟨_, h2⟩; omega
  have hpel := pivot_element_neg_one hdims hpart hsys hr hc
  have hpart' := pivot_partition hpart hrD hcN
  have hsys' := sysInv_pivot hpart hrb.1 hcb.1 hrD hcN hpel hsys
  refine ⟨fun i k hi hk => tab_entry_of_sysInv hpart' hsys' i k hi hk,
    hpart', ?_, ?_, ?_, ?_⟩
  · simp [pivot]
  · simp [pivot]
  · intro k hk
    simp [pivot, hk]
  · intro i hi
    simp [pivot, hi]

/-- Witness for C5: the first pivot of the acyclic chain example (row 1,
column 3, selected by the scans on the freshly built tableau) swaps the
non-basic variable at position 1 with the basic variable at position 0. -/
theorem c5_pivot_preserves_invariants_witness :
    iterStep 0 (buildTableau false chainProblem) =
      some (buildTableau false chainProblem) ∧
    findPivotRow (buildTableau false chainProblem) = some 1 ∧
    findPivotColumn (buildTableau false chainProblem) 1 = some 3 ∧
    (pivot (buildTableau false chainProblem) 1 3).nonBasic (3 - 2) =
      (buildTableau false chainProblem).basic (1 - 1) :=
  ⟨rfl, by decide, by decide,
    (c5_pivot_preserves_invariants false chainProblem 0
      (buildTableau false chainProblem) 1 3 rfl (by decide) (by decide)).2.2.1⟩
